import Mathlib

/-!
# Verification of the bookstore algorithmic core

Shallow embedding of the repository's algorithmic processing core:
the FIFO `Queue` and LIFO `Stack` containers
(`src/server/utils/dataStructures/Queue.js`, `Stack.js`),
the sorting and search algorithm libraries
(`src/server/utils/algorithms/SearchAlgorithms.js`, both classes),
and the `OrderProcessor` orchestrator (`src/unnamed/part_001`).

JavaScript arrays are modelled as `List (Option _)`: `arr[i] = v` writes
`some v` (padding shorter arrays with `none` holes, as JS does), and
`delete arr[i]` writes `none`.  Possibly-`undefined` values are `Option`.
Wall-clock readings (`performance.now()`, `new Date()`) are environmental
inputs and are passed as explicit parameters where the code records them.
-/

namespace Bookstore

/-- Model of the JavaScript array write `arr[i] = v`: in-range writes
replace the slot, out-of-range writes pad with holes and append. -/
def storeAt {α : Type} (l : List (Option α)) (i : Nat) (v : Option α) :
    List (Option α) :=
  if i < l.length then l.set i v
  else l ++ List.replicate (i - l.length) none ++ [v]

/-! ## Queue (src/server/utils/dataStructures/Queue.js)

State is the `items` array plus the `front` and `rear` cursors. -/

structure QState (α : Type) where
  items : List (Option α)
  front : Nat
  rear : Nat
deriving DecidableEq

/-- `new Queue()` -/
def qEmpty {α : Type} : QState α := ⟨[], 0, 0⟩

/-- `Queue.isEmpty()`: `rear === front`. -/
def qIsEmpty {α : Type} (s : QState α) : Bool := s.rear == s.front

/-- `Queue.size()`: `rear - front`. -/
def qSize {α : Type} (s : QState α) : Nat := s.rear - s.front

/-- `Queue.enqueue(e)`: `items[rear] = e; rear++`. -/
def qEnqueue {α : Type} (s : QState α) (e : α) : QState α :=
  ⟨storeAt s.items s.rear (some e), s.front, s.rear + 1⟩

/-- `Queue.dequeue()`: returns `undefined` when empty; otherwise reads
`items[front]`, deletes the slot, advances `front`, and resets the
queue to pristine state when `front` catches up with `rear`. -/
def qDequeue {α : Type} (s : QState α) : QState α × Option α :=
  if qIsEmpty s then (s, none)
  else
    let item := (s.items[s.front]?).bind id
    let items' := s.items.set s.front none
    let front' := s.front + 1
    if front' = s.rear then (⟨[], 0, 0⟩, item)
    else (⟨items', front', s.rear⟩, item)

/-- `Queue.peek()`. -/
def qPeek {α : Type} (s : QState α) : Option α :=
  if qIsEmpty s then none else (s.items[s.front]?).bind id

/-- `Queue.toArray()`: the slots from `front` (inclusive) to `rear`
(exclusive); under the reachable-state invariant every such slot is
occupied, so dropping holes is the identity there. -/
def qToArray {α : Type} (s : QState α) : List α :=
  (((s.items.drop s.front).take (s.rear - s.front)).filterMap id)

/-- Abstract contents of a queue, front first. -/
def qAbs {α : Type} (s : QState α) : List α :=
  (s.items.drop s.front).filterMap id

/-- Invariant of every queue state reachable from `qEmpty`. -/
def QInv {α : Type} (s : QState α) : Prop :=
  s.front ≤ s.rear ∧ s.items.length = s.rear ∧
    ∀ i, s.front ≤ i → i < s.rear → ((s.items[i]?).bind id).isSome

/-! ## Stack (src/server/utils/dataStructures/Stack.js)

State is the `items` array plus the `top` cursor (starts at `-1`). -/

structure StackS (α : Type) where
  items : List (Option α)
  top : Int
deriving DecidableEq

/-- `new Stack()` -/
def sEmpty {α : Type} : StackS α := ⟨[], -1⟩

/-- `Stack.isEmpty()`: `top === -1`. -/
def sIsEmpty {α : Type} (s : StackS α) : Bool := s.top == -1

/-- `Stack.size()`: `top + 1` (a `Nat` on every reachable state). -/
def sSize {α : Type} (s : StackS α) : Nat := (s.top + 1).toNat

/-- `Stack.push(e)` generalized to an arbitrary JS value (possibly
`undefined`): `top++; items[top] = e`. -/
def sPushOpt {α : Type} (s : StackS α) (v : Option α) : StackS α :=
  ⟨storeAt s.items (s.top + 1).toNat v, s.top + 1⟩

/-- `Stack.push(e)`. -/
def sPush {α : Type} (s : StackS α) (e : α) : StackS α := sPushOpt s (some e)

/-- `Stack.pop()`: returns `undefined` when empty; otherwise reads
`items[top]`, deletes the slot and decrements `top`. -/
def sPop {α : Type} (s : StackS α) : StackS α × Option α :=
  if sIsEmpty s then (s, none)
  else
    let item := (s.items[s.top.toNat]?).bind id
    (⟨s.items.set s.top.toNat none, s.top - 1⟩, item)

/-- `Stack.peek()`. -/
def sPeek {α : Type} (s : StackS α) : Option α :=
  if sIsEmpty s then none else (s.items[s.top.toNat]?).bind id

/-- Abstract contents of a stack, top first. -/
def sAbs {α : Type} (s : StackS α) : List α :=
  ((s.items.take (s.top + 1).toNat).filterMap id).reverse

/-- Invariant of every stack state reachable from `sEmpty`: `top` never
goes below `-1`, the live region fits in the array, and every live slot
is occupied. -/
def SInv {α : Type} (s : StackS α) : Prop :=
  -1 ≤ s.top ∧ (s.top + 1).toNat ≤ s.items.length ∧
    ∀ i : Nat, i < (s.top + 1).toNat → ((s.items[i]?).bind id).isSome

/-! ## Queue operation sequences (claim C6) -/

/-- One caller-visible queue operation. -/
inductive QOp (α : Type) where
  | enq (x : α)
  | deq
deriving DecidableEq

/-- Run one operation, appending the value returned by a `dequeue()`
call (possibly `undefined`) to the output trace. -/
def qStep {α : Type} (acc : QState α × List (Option α)) (op : QOp α) :
    QState α × List (Option α) :=
  match op with
  | .enq x => (qEnqueue acc.1 x, acc.2)
  | .deq => ((qDequeue acc.1).1, acc.2 ++ [(qDequeue acc.1).2])

/-- Run a whole operation sequence from `new Queue()`. -/
def runQueue {α : Type} (ops : List (QOp α)) : QState α × List (Option α) :=
  ops.foldl qStep (qEmpty, [])

/-- The values enqueued by a sequence, in call order. -/
def enqValues {α : Type} (ops : List (QOp α)) : List α :=
  ops.filterMap (fun op => match op with | .enq x => some x | .deq => none)

/-! ## Sorting library (`SortingAlgorithms` in
src/server/utils/algorithms/SearchAlgorithms.js)

Each JS sort copies its input and returns an `AlgorithmResult` whose
`sortedArray` field carries the sorted copy; the result's performance
counters (`executionTime`, `comparisons`, `swaps`, `merges`) do not bear
on any claim and are not modelled.  The comparator `compare(a, b)`
returns `true` when `a` should sort after `b`. -/

/-- Inner `while` loop of `insertionSort`, acting on the *reversed*
sorted prefix `result[0..i-1]`: elements that sort after `key` are
passed over (they shift right), and `key` lands right after the first
element, scanning right-to-left, that does not sort after it. -/
def insRev {α : Type} (r : α → α → Bool) (key : α) : List α → List α
  | [] => [key]
  | b :: l => if r b key then b :: insRev r key l else key :: b :: l

/-- `SortingAlgorithms.insertionSort`: repeatedly insert the next element
into the sorted prefix (kept in reverse so the right-to-left inner scan
is structural). -/
def insertionSortL {α : Type} (r : α → α → Bool) (arr : List α) : List α :=
  (arr.foldl (fun acc x => insRev r x acc) []).reverse

/-- Inner scan of one `selectionSort` pass: starting with candidate
minimum `cand`, update the candidate whenever `compare(candidate, z)`
holds.  Returns the final minimum together with `none` when the
candidate never changed, or `some (pre, post)` splitting the scanned
list as `pre ++ [min] ++ post`. -/
def scanSel {α : Type} (r : α → α → Bool) (cand : α) :
    List α → α × Option (List α × List α)
  | [] => (cand, none)
  | z :: l =>
    if r cand z then
      match scanSel r z l with
      | (m, none) => (m, some ([], l))
      | (m, some (pre, post)) => (m, some (z :: pre, post))
    else
      match scanSel r cand l with
      | (m, none) => (m, none)
      | (m, some (pre, post)) => (m, some (z :: pre, post))

/-- Outer loop of `selectionSort`: scan for the minimum of the suffix,
swap it with the suffix's first element (the single swap of each pass,
skipped when `minIndex === i`), and continue on the rest.  The JS `for`
loop is driven by an explicit induction measure (`fuel`), instantiated
with the list length by `selectionSortL`. -/
def selSortAux {α : Type} (r : α → α → Bool) : Nat → List α → List α
  | 0, l => l
  | _ + 1, [] => []
  | fuel + 1, y :: ys =>
    match scanSel r y ys with
    | (_, none) => y :: selSortAux r fuel ys
    | (m, some (pre, post)) => m :: selSortAux r fuel (pre ++ y :: post)

/-- `SortingAlgorithms.selectionSort`. -/
def selectionSortL {α : Type} (r : α → α → Bool) (l : List α) : List α :=
  selSortAux r l.length l

/-- Move a list's first element to its end: the net effect of the Lomuto
partition's swap on the contiguous block of pivot-or-larger elements. -/
def rotate1 {α : Type} : List α → List α
  | [] => []
  | y :: ys => ys ++ [y]

/-- `partition(arr, low, high)` of `quickSort` (Lomuto, pivot = last
element), tracked by region contents: elements with
`!compare(arr[j], pivot)` are appended to the small region in scan
order; each such swap rotates the large block one step (a no-op exactly
when `i === j`, matching the skipped swap); larger elements extend the
large block in place. -/
def lomuto {α : Type} (r : α → α → Bool) (pivot : α) (body : List α) :
    List α × List α :=
  body.foldl
    (fun acc x =>
      if r x pivot then (acc.1, acc.2 ++ [x])
      else (acc.1 ++ [x], rotate1 acc.2))
    ([], [])

/-- `quickSortHelper`: after partitioning, the final pivot swap puts the
pivot between the regions and rotates the large block once more (skipped
exactly when `i + 1 === high`, i.e. the large block is empty --- which is
when `rotate1` is a no-op).  Recursion on both regions, driven by an
explicit induction measure instantiated with the list length. -/
def quickSortAux {α : Type} (r : α → α → Bool) : Nat → List α → List α
  | 0, l => l
  | _ + 1, [] => []
  | fuel + 1, x :: xs =>
    let pivot := (x :: xs).getLast (List.cons_ne_nil x xs)
    let body := (x :: xs).dropLast
    let p := lomuto r pivot body
    quickSortAux r fuel p.1 ++ pivot :: quickSortAux r fuel p.2

/-- `SortingAlgorithms.quickSort`. -/
def quickSortL {α : Type} (r : α → α → Bool) (l : List α) : List α :=
  quickSortAux r l.length l

/-- `merge(left, right)` of `mergeSort`: take from the left while
`!compare(left[li], right[ri])`, then drain. -/
def mergeL {α : Type} (r : α → α → Bool) : List α → List α → List α
  | [], ys => ys
  | x :: xs, [] => x :: xs
  | x :: xs, y :: ys =>
    if r x y then y :: mergeL r (x :: xs) ys
    else x :: mergeL r xs (y :: ys)
termination_by xs ys => xs.length + ys.length

/-- `SortingAlgorithms.mergeSort`: split at `floor(length / 2)`,
recurse, merge. -/
def mergeSortL {α : Type} (r : α → α → Bool) (l : List α) : List α :=
  if h : l.length ≤ 1 then l
  else
    mergeL r (mergeSortL r (l.take (l.length / 2)))
      (mergeSortL r (l.drop (l.length / 2)))
termination_by l.length
decreasing_by
  · rw [List.length_take]; omega
  · rw [List.length_drop]; omega

/-! ## Search library (`SearchAlgorithms` in
src/server/utils/algorithms/SearchAlgorithms.js)

Key functions are passed explicitly (the claims always supply one, as
does the orchestrator); execution-time fields are not modelled. -/

/-- The result record shared by `linearSearch` and `hashSearch`:
`found`, `index` (`-1` when absent), `element` (`null` when absent),
the algorithm name, and the comparison count. -/
structure SearchResult (α : Type) where
  found : Bool
  index : Int
  element : Option α
  algorithm : String
  comparisons : Nat
deriving DecidableEq

/-- The scan loop of `SearchAlgorithms.linearSearch`: walk the array,
counting one comparison per element, and stop at the first key match. -/
def linearSearchAux {α κ : Type} [DecidableEq κ] (getKey : α → κ)
    (target : κ) : List α → Nat → Nat → SearchResult α
  | [], _, comps => ⟨false, -1, none, "Linear Search", comps⟩
  | x :: rest, i, comps =>
    if getKey x = target then ⟨true, i, some x, "Linear Search", comps + 1⟩
    else linearSearchAux getKey target rest (i + 1) (comps + 1)

/-- `SearchAlgorithms.linearSearch`. -/
def linearSearch {α κ : Type} [DecidableEq κ] (arr : List α) (target : κ)
    (getKey : α → κ) : SearchResult α :=
  linearSearchAux getKey target arr 0 0

/-- JavaScript `Map.prototype.set`: replace in place when the key is
present, append otherwise. -/
def mapSet {κ β : Type} [DecidableEq κ] (tbl : List (κ × β)) (key : κ)
    (v : β) : List (κ × β) :=
  if tbl.any (fun e => decide (e.1 = key)) then
    tbl.map (fun e => if e.1 = key then (key, v) else e)
  else tbl ++ [(key, v)]

/-- JavaScript `Map.prototype.get`. -/
def mapGet {κ β : Type} [DecidableEq κ] (tbl : List (κ × β)) (key : κ) :
    Option β :=
  (tbl.find? (fun e => decide (e.1 = key))).map (fun e => e.2)

/-- The table-building loop of `hashSearch`:
`hashTable.set(getKey(data[i]), { index: i, element: data[i] })` for
each `i` in order. -/
def buildTable {α κ : Type} [DecidableEq κ] (getKey : α → κ) :
    List α → Nat → List (κ × Nat × α) → List (κ × Nat × α)
  | [], _, tbl => tbl
  | x :: rest, i, tbl =>
    buildTable getKey rest (i + 1) (mapSet tbl (getKey x) (i, x))

/-- `SearchAlgorithms.hashSearch`: build the table over the full input,
then perform a single lookup (`comparisons = 1`). -/
def hashSearch {α κ : Type} [DecidableEq κ] (data : List α) (target : κ)
    (getKey : α → κ) : SearchResult α :=
  match mapGet (buildTable getKey data 0 []) target with
  | some (i, x) => ⟨true, i, some x, "Hash Search", 1⟩
  | none => ⟨false, -1, none, "Hash Search", 1⟩

/-- Specification-side list of key matches of a search, each with its
index, in scan order. -/
def hitsFrom {α κ : Type} [DecidableEq κ] (getKey : α → κ) (target : κ) :
    List α → Nat → List (Nat × α)
  | [], _ => []
  | x :: rest, i =>
    (if getKey x = target then [(i, x)] else [])
      ++ hitsFrom getKey target rest (i + 1)

/-- Model of `String.prototype.toLowerCase`. -/
def strLower (s : String) : String := String.map Char.toLower s

/-- `matrix[i][j]` of the Levenshtein dynamic program inside
`fuzzySearch` (`i` indexes `str2`, `j` indexes `str1`):
`matrix[i][0] = i`, `matrix[0][j] = j`, and otherwise the standard
match / min-of-three recurrence. -/
def levRec (str1 str2 : List Char) : Nat → Nat → Nat
  | 0, j => j
  | i + 1, 0 => i + 1
  | i + 1, j + 1 =>
    if str2[i]? = str1[j]? then levRec str1 str2 i j
    else
      min (levRec str1 str2 i j + 1)
        (min (levRec str1 str2 (i + 1) j + 1) (levRec str1 str2 i (j + 1) + 1))
termination_by i j => (i, j)

/-- `levenshteinDistance(str1, str2)`:
`matrix[str2.length][str1.length]`. -/
def levenshteinDistance (str1 str2 : String) : Nat :=
  levRec str1.data str2.data str2.data.length str1.data.length

/-- One entry of `fuzzySearch`'s `results` array. -/
structure FuzzyMatch (α : Type) where
  index : Nat
  element : α
  distance : Nat
  similarity : ℚ
deriving DecidableEq

/-- The candidate loop of `fuzzySearch`: lowercase the key, compute the
edit distance against the lowercased query, and keep candidates with
distance at most the threshold, scoring them by
`1 - distance / max(query.length, text.length)`. -/
def fuzzyScan {α : Type} (getKey : α → String) (queryLower : String)
    (qlen : Nat) (threshold : ℚ) : List α → Nat → List (FuzzyMatch α)
  | [], _ => []
  | x :: rest, i =>
    let text := strLower (getKey x)
    let d := levenshteinDistance queryLower text
    (if (d : ℚ) ≤ threshold then
        [⟨i, x, d, 1 - (d : ℚ) / (max qlen text.length : ℚ)⟩]
      else [])
      ++ fuzzyScan getKey queryLower qlen threshold rest (i + 1)

/-- `fuzzySearch`'s result record (execution time omitted). -/
structure FuzzyResult (α : Type) where
  found : Bool
  «matches» : List (FuzzyMatch α)
  algorithm : String
  comparisons : Nat
  threshold : ℚ
deriving DecidableEq

/-- `SearchAlgorithms.fuzzySearch`: scan all candidates, then sort the
accepted matches by similarity, highest first (the JS engine's stable
`Array.prototype.sort` with comparator `b.similarity - a.similarity` is
modelled by the library's own stable merge sort under the comparator "a
sorts after b when a.similarity < b.similarity").  `comparisons` totals
the inner Levenshtein loop iterations,
`str2.length * str1.length` per candidate. -/
def fuzzySearch {α : Type} (data : List α) (query : String)
    (getKey : α → String) (threshold : ℚ) : FuzzyResult α :=
  let results := fuzzyScan getKey (strLower query) query.length threshold data 0
  ⟨decide (0 < results.length),
   mergeSortL (fun a b => decide (a.similarity < b.similarity)) results,
   "Fuzzy Search",
   data.foldl
     (fun c x => c + (strLower (getKey x)).length * (strLower query).length) 0,
   threshold⟩

/-- A key-induced comparator on index-tagged elements, as the library is
used (`(a, b) => keyOf(a) > keyOf(b)`): the tagged element `p` should
sort after `q` when `p`'s key is strictly greater.  Stability is stated
on inputs tagged with their positions. -/
def keyCompare {α κ : Type} [LinearOrder κ] (k : α → κ)
    (p q : α × Nat) : Bool := decide (k q.1 < k p.1)

/-! ## Orchestrator (`OrderProcessor` in src/unnamed/part_001)

Timestamps (`new Date()`) and measured durations (`performance.now()`
differences) are environmental inputs, passed as the parameters `now`
and `elapsed`.  A customer reference is modelled as an optional plain
string (the source also accepts a populated user object and then keys
fuzzy search by `customer?.username || customer`). -/

structure Book where
  title : Option String
  price : Option ℚ
deriving DecidableEq

/-- A line item of an order; `book` and `quantity` may be absent
(guarded by optional chaining / `||` defaults in the source). -/
structure Item where
  book : Option Book
  quantity : Option Nat
deriving DecidableEq

/-- `item.book?.title`. -/
def itemTitle (a : Item) : Option String := a.book.bind (fun b => b.title)

/-- The book comparator `(a, b) => a.book?.title > b.book?.title`: a JS
`>` comparison is `false` whenever either side is `undefined`, and
lexicographic on strings otherwise. -/
def titleAfter (a b : Item) : Bool :=
  match itemTitle a, itemTitle b with
  | some ta, some tb => decide (tb < ta)
  | _, _ => false

structure Order where
  orderNumber : String
  customer : Option String
  books : List Item
  status : String
  createdAt : Nat
  processingSteps : List String
  totalPrice : Option ℚ
  sortingAlgorithm : Option String
  processedAt : Option Nat
  error : Option String
deriving DecidableEq

/-- A history-stack record; each action tag fills a subset of the
optional fields (`ORDER_ADDED`: `queueSize`; `ORDER_PROCESSED`:
`processingTime` and `algorithm`; `ORDER_ERROR`: `error`). -/
structure HistoryEntry where
  action : String
  orderNumber : String
  timestamp : Nat
  queueSize : Option Nat
  processingTime : Option ℚ
  algorithm : Option String
  error : Option String
deriving DecidableEq

/-- The `stats` object; the per-algorithm tallies are JS objects used as
string-keyed maps, modelled as association lists in insertion order. -/
structure Stats where
  totalProcessed : Nat
  averageProcessingTime : ℚ
  sortingUsed : List (String × Nat)
  searchingUsed : List (String × Nat)
deriving DecidableEq

/-- `if (!tally[k]) tally[k] = 0; tally[k]++` on a string-keyed map. -/
def bumpTally (t : List (String × Nat)) (k : String) : List (String × Nat) :=
  if t.any (fun e => decide (e.1 = k)) then
    t.map (fun e => if e.1 = k then (e.1, e.2 + 1) else e)
  else t ++ [(k, 1)]

/-- The `OrderProcessor` instance state: pending queue, history stack,
completed queue, statistics. -/
structure OPState where
  pendingOrders : QState Order
  processingHistory : StackS HistoryEntry
  completedOrders : QState Order
  stats : Stats
deriving DecidableEq

/-- `new OrderProcessor()`. -/
def initState : OPState := ⟨qEmpty, sEmpty, qEmpty, ⟨0, 0, [], []⟩⟩

/-- Result record of `sortBooksInOrder` (the fields the caller reads). -/
structure BookSortRes where
  sortedArray : List Item
  algorithm : String
deriving DecidableEq

/-- `OrderProcessor.sortBooksInOrder`: skip lists of at most one book
("No sorting needed", statistics untouched); otherwise pick insertion
sort for at most 10 books, quick sort for at most 50, merge sort beyond,
and tally the algorithm used into `stats.algorithmsUsed.sorting`. -/
def sortBooksInOrder (stats : Stats) (books : List Item) :
    BookSortRes × Stats :=
  if books.length ≤ 1 then
    ({ sortedArray := books, algorithm := "No sorting needed" }, stats)
  else
    let res :=
      if books.length ≤ 10 then
        { sortedArray := insertionSortL titleAfter books,
          algorithm := "Insertion Sort" }
      else if books.length ≤ 50 then
        { sortedArray := quickSortL titleAfter books,
          algorithm := "Quick Sort" }
      else
        { sortedArray := mergeSortL titleAfter books,
          algorithm := "Merge Sort" }
    (res, { stats with sortingUsed := bumpTally stats.sortingUsed res.algorithm })

/-- `OrderProcessor.addOrder` (identifier generation is environmental:
the fresh `orderNumber` and the timestamp are parameters). -/
def addOrder (s : OPState) (books : List Item) (customer : Option String)
    (orderNumber : String) (now : Nat) : OPState × String × Nat :=
  let order : Order :=
    { orderNumber := orderNumber, customer := customer, books := books,
      status := "Pending", createdAt := now, processingSteps := [],
      totalPrice := none, sortingAlgorithm := none, processedAt := none,
      error := none }
  let pending' := qEnqueue s.pendingOrders order
  let hist' := sPush s.processingHistory
    { action := "ORDER_ADDED", orderNumber := orderNumber, timestamp := now,
      queueSize := some (qSize pending'), processingTime := none,
      algorithm := none, error := none }
  ({ s with pendingOrders := pending', processingHistory := hist' },
   orderNumber, qSize pending')

/-- `validateOrder`: the message of the first failing check, if any. -/
def validateOrderMsg (o : Order) : Option String :=
  if o.books.length = 0 then some "Order must contain at least one book"
  else if o.customer.isNone then some "Order must have customer information"
  else none

/-- JS `x || d` for an optional number (`undefined` and `0` are falsy). -/
def orNat (v : Option Nat) (d : Nat) : Nat :=
  match v with
  | none => d
  | some q => if q = 0 then d else q

/-- JS `x || d` for an optional rational. -/
def orQ (v : Option ℚ) (d : ℚ) : ℚ :=
  match v with
  | none => d
  | some p => if p = 0 then d else p

/-- `calculateTotalAndUpdateInventory`: sum of
`(item.book?.price || 0) * (item.quantity || 1)`. -/
def calcTotal (books : List Item) : ℚ :=
  books.foldl
    (fun t it =>
      t + orQ (it.book.bind (fun b => b.price)) 0 * (orNat it.quantity 1 : ℚ))
    0

/-- The three return shapes of `processNextOrder`. -/
inductive ProcessOutcome where
  | emptyQueue
  | processed (order : Order) (remainingInQueue : Nat)
  | errorResult (orderNumber : String) (error : String)
deriving DecidableEq

/-- `OrderProcessor.processNextOrder`: fail fast on an empty pending
queue; otherwise dequeue, validate (failures mark the order `Error`,
push `ORDER_ERROR`, and do *not* re-enqueue), run the always-succeeding
availability stub, sort the books via `sortBooksInOrder`, total the
price, mark `Processing`, push `ORDER_PROCESSED`, enqueue to the
completed queue and fold `elapsed` into the running statistics. -/
def processNextOrder (s : OPState) (now : Nat) (elapsed : ℚ) :
    ProcessOutcome × OPState :=
  if qIsEmpty s.pendingOrders then (.emptyQueue, s)
  else
    let pq' := (qDequeue s.pendingOrders).1
    match (qDequeue s.pendingOrders).2 with
    | none =>
      -- Unreachable from reachable states: a non-empty queue's front
      -- slot is always occupied (`qDequeue_cons`); the JS code would
      -- fault here dereferencing `undefined`.
      (.emptyQueue, { s with pendingOrders := pq' })
    | some order =>
      let order1 := { order with
        processingSteps := order.processingSteps ++ ["Order validation started"] }
      match validateOrderMsg order1 with
      | some msg =>
        let hist' := sPush s.processingHistory
          { action := "ORDER_ERROR", orderNumber := order.orderNumber,
            timestamp := now, queueSize := none, processingTime := none,
            algorithm := none, error := some msg }
        (.errorResult order.orderNumber msg,
         { s with pendingOrders := pq', processingHistory := hist' })
      | none =>
        let (sres, stats') := sortBooksInOrder s.stats order.books
        let order' := { order1 with
          processingSteps := order1.processingSteps ++
            ["Book availability check", "Sorting books in order",
             "Calculating total and updating inventory"],
          books := sres.sortedArray,
          sortingAlgorithm := some sres.algorithm,
          totalPrice := some (calcTotal sres.sortedArray),
          status := "Processing",
          processedAt := some now }
        let hist' := sPush s.processingHistory
          { action := "ORDER_PROCESSED", orderNumber := order.orderNumber,
            timestamp := now, queueSize := none,
            processingTime := some elapsed,
            algorithm := some sres.algorithm, error := none }
        let comp' := qEnqueue s.completedOrders order'
        let stats'' := { stats' with
          totalProcessed := stats'.totalProcessed + 1,
          averageProcessingTime :=
            (stats'.averageProcessingTime * stats'.totalProcessed + elapsed) /
              (stats'.totalProcessed + 1) }
        (.processed order' (qSize pq'),
         { pendingOrders := pq', processingHistory := hist',
           completedOrders := comp', stats := stats'' })

/-- A `searchOrder` result: linear/hash searches return a single-hit
record, fuzzy search a match list. -/
inductive OrderSearchResult where
  | single (res : SearchResult Order)
  | fuzzy (res : FuzzyResult Order)
deriving DecidableEq

/-- The `algorithm` field of whichever record was produced. -/
def osAlgorithm : OrderSearchResult → String
  | .single r => r.algorithm
  | .fuzzy r => r.algorithm

/-- The customer key used by fuzzy search:
`order.customer?.username || order.customer` over our optional-string
customer model. -/
def customerKey (o : Order) : String := o.customer.getD ""

/-- `OrderProcessor.searchOrder`: snapshot both queues, dispatch on the
search type (`orderNumber` → linear by order number, `customer` → fuzzy
with threshold 2, `status` → linear by status, anything else → hash by
order number), and tally the algorithm used. -/
def searchOrder (s : OPState) (term : String) (ty : String) :
    OrderSearchResult × OPState :=
  let allOrders := qToArray s.pendingOrders ++ qToArray s.completedOrders
  let res : OrderSearchResult :=
    if ty = "orderNumber" then
      .single (linearSearch allOrders term (fun o => o.orderNumber))
    else if ty = "customer" then
      .fuzzy (fuzzySearch allOrders term customerKey 2)
    else if ty = "status" then
      .single (linearSearch allOrders term (fun o => o.status))
    else
      .single (hashSearch allOrders term (fun o => o.orderNumber))
  (res,
   { s with stats := { s.stats with
      searchingUsed := bumpTally s.stats.searchingUsed (osAlgorithm res) } })

/-- The pop loop of `getProcessingHistory`: up to `count` times, pop the
history stack, append the popped value to the result array and push it
onto the temporary stack.  The local `tempStack` starts empty and is
only pushed/popped, so it is modelled by a Lean list used LIFO. -/
def ghLoop : Nat → StackS HistoryEntry → List (Option HistoryEntry) →
    List (Option HistoryEntry) →
    StackS HistoryEntry × List (Option HistoryEntry) × List (Option HistoryEntry)
  | 0, hist, out, temp => (hist, out, temp)
  | n + 1, hist, out, temp =>
    if sIsEmpty hist then (hist, out, temp)
    else ghLoop n (sPop hist).1 (out ++ [(sPop hist).2]) ((sPop hist).2 :: temp)

/-- The restore loop of `getProcessingHistory`: push every value popped
from the temporary stack back onto the history stack. -/
def ghRestore : List (Option HistoryEntry) → StackS HistoryEntry →
    StackS HistoryEntry
  | [], hist => hist
  | v :: temp, hist => ghRestore temp (sPushOpt hist v)

/-- `OrderProcessor.getProcessingHistory(count)` (the source defaults
`count` to 10): returns the collected entries and the state whose
history stack went through the pop/push shuffle. -/
def getProcessingHistory (s : OPState) (count : Nat) :
    List (Option HistoryEntry) × OPState :=
  let r := ghLoop count s.processingHistory [] []
  (r.2.1, { s with processingHistory := ghRestore r.2.2 r.1 })

/-- `getQueueStatus()` result record. -/
structure QueueStatus where
  pendingOrders : Nat
  completedOrders : Nat
  processingHistorySize : Nat
  nextOrder : Option Order
  lastProcessed : Option HistoryEntry
  statistics : Stats
deriving DecidableEq

/-- `OrderProcessor.getQueueStatus`. -/
def getQueueStatus (s : OPState) : QueueStatus :=
  ⟨qSize s.pendingOrders, qSize s.completedOrders,
   sSize s.processingHistory, qPeek s.pendingOrders,
   sPeek s.processingHistory, s.stats⟩

/-- The three return shapes of `undoLastOperation`. -/
inductive UndoResult where
  | noOps
  | undone (orderNumber : String) (operation : HistoryEntry)
  | notUndoable
deriving DecidableEq

/-- `OrderProcessor.undoLastOperation`: refuse on an empty history;
otherwise *pop* the top entry, acknowledge `ORDER_PROCESSED` entries
(no queue state is restored) and report every other action tag as not
undoable --- the popped entry is not pushed back in either case. -/
def undoLastOperation (s : OPState) : UndoResult × OPState :=
  if sIsEmpty s.processingHistory then (.noOps, s)
  else
    let s' := { s with processingHistory := (sPop s.processingHistory).1 }
    match (sPop s.processingHistory).2 with
    | some op =>
      if op.action = "ORDER_PROCESSED" then (.undone op.orderNumber op, s')
      else (.notUndoable, s')
    | none =>
      -- Unreachable from reachable states: live slots are occupied;
      -- the JS code would fault reading `.action` of `undefined`.
      (.notUndoable, s')

/-- The comparator contract of the spec: `compare(a, b)` means "a should
sort after b" and is a strict total order (irreflexive, transitive,
connected). -/
def IsSTO {α : Type} (r : α → α → Bool) : Prop :=
  (∀ a, r a a = false) ∧
  (∀ a b c, r a b = true → r b c = true → r a c = true) ∧
  (∀ a b, a ≠ b → r a b = true ∨ r b a = true)

/-- Output ordering demanded of the sorts: no earlier element should
sort after a later one. -/
def SortedB {α : Type} (r : α → α → Bool) (l : List α) : Prop :=
  l.Pairwise (fun a b => r a b = false)

/-! ### Container simulation lemmas -/

theorem bind_id_isSome {α : Type} {o : Option (Option α)}
    (h : (o.bind id).isSome) : ∃ y, o = some (some y) := by
  cases o with
  | none => simp at h
  | some o' =>
    cases o' with
    | none => simp at h
    | some y => exact ⟨y, rfl⟩

theorem storeAt_append {α : Type} (l : List (Option α)) (v : Option α) :
    storeAt l l.length v = l ++ [v] := by
  simp [storeAt]

theorem qInv_empty {α : Type} : QInv (qEmpty (α := α)) := by
  refine ⟨Nat.le_refl 0, rfl, ?_⟩
  intro i h1 h2
  simp [qEmpty] at h2

theorem qAbs_empty {α : Type} : qAbs (qEmpty (α := α)) = [] := rfl

theorem qEnqueue_inv {α : Type} (s : QState α) (e : α) (h : QInv s) :
    QInv (qEnqueue s e) ∧ qAbs (qEnqueue s e) = qAbs s ++ [e] := by
  obtain ⟨hfr, hlen, hlive⟩ := h
  have hst : storeAt s.items s.rear (some e) = s.items ++ [some e] := by
    rw [← hlen]; exact storeAt_append _ _
  constructor
  · refine ⟨?_, ?_, ?_⟩
    · simp only [qEnqueue]; omega
    · simp [qEnqueue, hst, hlen]
    · intro i h1 h2
      simp only [qEnqueue, hst] at *
      by_cases hi : i < s.rear
      · rw [List.getElem?_append_left (by omega)]
        exact hlive i h1 hi
      · have hieq : i = s.rear := by omega
        subst hieq
        rw [List.getElem?_append_right (by omega)]
        simp [hlen]
  · simp only [qAbs, qEnqueue, hst]
    rw [List.drop_append_of_le_length (by omega)]
    simp

theorem drop_cons_of_getElem? {α : Type} (l : List α) (i : Nat) (a : α)
    (h : l[i]? = some a) : l.drop i = a :: l.drop (i + 1) := by
  have hlt : i < l.length := by
    by_contra hge
    rw [List.getElem?_eq_none (by omega)] at h
    exact Option.noConfusion h
  have hget : l[i] = a := by
    have := List.getElem?_eq_getElem hlt
    rw [this] at h
    injection h
  rw [List.drop_eq_getElem_cons hlt, hget]

theorem qAbs_nil_iff {α : Type} (s : QState α) (hinv : QInv s) :
    qAbs s = [] ↔ qIsEmpty s = true := by
  obtain ⟨hfr, hlen, hlive⟩ := hinv
  constructor
  · intro h
    simp only [qIsEmpty, beq_iff_eq]
    by_contra hne
    have hlt : s.front < s.rear := by omega
    obtain ⟨y, hy⟩ := bind_id_isSome (hlive s.front (Nat.le_refl _) hlt)
    have hdrop := drop_cons_of_getElem? s.items s.front (some y) hy
    have : qAbs s = y :: (s.items.drop (s.front + 1)).filterMap id := by
      simp only [qAbs]
      rw [hdrop]
      simp
    rw [h] at this
    exact List.noConfusion this
  · intro h
    simp only [qIsEmpty, beq_iff_eq] at h
    simp only [qAbs]
    have : s.items.drop s.front = [] := by
      apply List.drop_eq_nil_of_le; omega
    simp [this]

theorem qDequeue_empty {α : Type} (s : QState α) (h : qAbs s = [])
    (hinv : QInv s) : qDequeue s = (s, none) := by
  have hemp : qIsEmpty s = true := (qAbs_nil_iff s hinv).mp h
  simp [qDequeue, hemp]

theorem qDequeue_cons {α : Type} (s : QState α) (x : α) (rest : List α)
    (h : qAbs s = x :: rest) (hinv : QInv s) :
    (qDequeue s).2 = some x ∧ QInv (qDequeue s).1 ∧ qAbs (qDequeue s).1 = rest := by
  obtain ⟨hfr, hlen, hlive⟩ := hinv
  have hemp : qIsEmpty s = false := by
    rw [← Bool.not_eq_true, ← qAbs_nil_iff s ⟨hfr, hlen, hlive⟩, h]
    simp
  have hne : s.rear ≠ s.front := by
    simpa [qIsEmpty] using hemp
  have hlt : s.front < s.rear := by omega
  obtain ⟨y, hy⟩ := bind_id_isSome (hlive s.front (Nat.le_refl _) hlt)
  have hdrop := drop_cons_of_getElem? s.items s.front (some y) hy
  have habs : qAbs s = y :: (s.items.drop (s.front + 1)).filterMap id := by
    simp only [qAbs]
    rw [hdrop]
    simp
  rw [h] at habs
  have hx1 : x = y := by injection habs
  have hr1 : rest = (s.items.drop (s.front + 1)).filterMap id := by injection habs
  subst hx1
  have hset_drop : (s.items.set s.front none).drop (s.front + 1) =
      s.items.drop (s.front + 1) := by
    apply List.ext_getElem?
    intro i
    rw [List.getElem?_drop, List.getElem?_drop]
    apply List.getElem?_set_ne
    omega
  by_cases hreset : s.front + 1 = s.rear
  · have heq : qDequeue s = (⟨[], 0, 0⟩, some x) := by
      simp [qDequeue, hemp, hreset, hy]
    have hrest : rest = [] := by
      rw [hr1]
      have hd2 : s.items.drop (s.front + 1) = [] := by
        apply List.drop_eq_nil_of_le; omega
      simp [hd2]
    rw [heq]
    exact ⟨rfl, qInv_empty, by simp [qAbs, hrest]⟩
  · have heq : qDequeue s =
        (⟨s.items.set s.front none, s.front + 1, s.rear⟩, some x) := by
      simp [qDequeue, hemp, hreset, hy]
    rw [heq]
    refine ⟨rfl, ⟨by simp only; omega, by simpa using hlen, ?_⟩, ?_⟩
    · intro i h1 h2
      simp only at h1 h2 ⊢
      have hgi : (s.items.set s.front none)[i]? = s.items[i]? :=
        List.getElem?_set_ne (by omega)
      rw [hgi]
      exact hlive i (by omega) h2
    · simp only [qAbs]
      rw [hset_drop, hr1]

theorem set_eq_of_getElem? {α : Type} (l : List α) (i : Nat) (a : α)
    (h : l[i]? = some a) : l.set i a = l := by
  apply List.ext_getElem?
  intro j
  by_cases hj : j = i
  · subst hj
    rw [List.getElem?_set_self (by
      by_contra hge
      rw [List.getElem?_eq_none (by omega)] at h
      exact Option.noConfusion h)]
    exact h.symm
  · exact List.getElem?_set_ne (fun he => hj he.symm)

theorem storeAt_take {α : Type} (l : List (Option α)) (k : Nat)
    (v : Option α) (hk : k ≤ l.length) :
    (storeAt l k v).take (k + 1) = l.take k ++ [v] ∧
    (∀ i, i < k → (storeAt l k v)[i]? = l[i]?) ∧
    k + 1 ≤ (storeAt l k v).length := by
  by_cases hlt : k < l.length
  · simp only [storeAt, if_pos hlt]
    refine ⟨?_, ?_, by simp; omega⟩
    · apply List.ext_getElem?
      intro j
      by_cases hj : j < k
      · rw [List.getElem?_take, if_pos (by omega),
          List.getElem?_set_ne (by omega),
          List.getElem?_append_left (by simp [List.length_take]; omega),
          List.getElem?_take, if_pos hj]
      · by_cases hj2 : j = k
        · subst hj2
          rw [List.getElem?_take, if_pos (by omega),
            List.getElem?_set_self hlt,
            List.getElem?_append_right (by rw [List.length_take]; omega)]
          simp [List.length_take, Nat.min_eq_left (Nat.le_of_lt hlt)]
        · rw [List.getElem?_eq_none (by simp [List.length_take]; omega),
            List.getElem?_eq_none (by simp [List.length_take]; omega)]
    · intro i hi
      exact List.getElem?_set_ne (by omega)
  · have hk' : k = l.length := by omega
    subst hk'
    rw [storeAt_append]
    refine ⟨?_, ?_, by simp⟩
    · rw [List.take_of_length_le (by simp), List.take_length]
    · intro i hi
      rw [List.getElem?_append_left hi]

theorem sInv_empty {α : Type} : SInv (sEmpty (α := α)) := by
  refine ⟨by simp [sEmpty], by simp [sEmpty], ?_⟩
  intro i h
  simp [sEmpty] at h

theorem sAbs_empty {α : Type} : sAbs (sEmpty (α := α)) = [] := rfl

theorem sPush_inv {α : Type} (s : StackS α) (e : α) (h : SInv s) :
    SInv (sPush s e) ∧ sAbs (sPush s e) = e :: sAbs s := by
  obtain ⟨htop, hlen, hlive⟩ := h
  set k := (s.top + 1).toNat with hk
  obtain ⟨htake, hpre, hlen'⟩ := storeAt_take s.items k (some e) hlen
  have hk1 : (s.top + 1 + 1).toNat = k + 1 := by omega
  constructor
  · refine ⟨by simp only [sPush, sPushOpt]; omega, ?_, ?_⟩
    · simp only [sPush, sPushOpt, hk1, ← hk]
      exact hlen'
    · intro i hi
      simp only [sPush, sPushOpt, hk1, ← hk] at hi ⊢
      by_cases hik : i < k
      · rw [hpre i hik]
        exact hlive i hik
      · have hieq : i = k := by omega
        have : (storeAt s.items k (some e))[k]? = some (some e) := by
          have h1 : (List.take (k + 1) (storeAt s.items k (some e)))[k]? =
              some (some e) := by
            rw [htake, List.getElem?_append_right (by rw [List.length_take]; omega)]
            simp [List.length_take, Nat.min_eq_left hlen]
          rw [List.getElem?_take, if_pos (by omega)] at h1
          exact h1
        rw [hieq, this]
        simp
  · simp only [sPush, sPushOpt, sAbs, hk1, ← hk]
    rw [htake]
    simp

theorem sAbs_nil_iff {α : Type} (s : StackS α) (hinv : SInv s) :
    sAbs s = [] ↔ sIsEmpty s = true := by
  obtain ⟨htop, hlen, hlive⟩ := hinv
  constructor
  · intro h
    simp only [sIsEmpty, beq_iff_eq]
    by_contra hne
    have htop0 : 0 ≤ s.top := by omega
    set t := s.top.toNat with ht
    have hkt : (s.top + 1).toNat = t + 1 := by omega
    obtain ⟨y, hy⟩ := bind_id_isSome (hlive t (by omega))
    have htl : t < s.items.length := by omega
    have htake : s.items.take (t + 1) = s.items.take t ++ [some y] := by
      rw [List.take_succ]
      simp [hy]
    have : sAbs s = y :: ((s.items.take t).filterMap id).reverse := by
      simp only [sAbs, hkt, htake]
      simp
    rw [h] at this
    exact List.noConfusion this
  · intro h
    simp only [sIsEmpty, beq_iff_eq] at h
    simp only [sAbs, h]
    simp

theorem sPop_cons {α : Type} (s : StackS α) (e : α) (rest : List α)
    (hinv : SInv s) (h : sAbs s = e :: rest) :
    (sPop s).2 = some e ∧ SInv (sPop s).1 ∧ sAbs (sPop s).1 = rest := by
  obtain ⟨htop, hlen, hlive⟩ := hinv
  have hemp : sIsEmpty s = false := by
    rw [← Bool.not_eq_true, ← sAbs_nil_iff s ⟨htop, hlen, hlive⟩, h]
    simp
  have hne : s.top ≠ -1 := by simpa [sIsEmpty] using hemp
  have htop0 : 0 ≤ s.top := by omega
  set t := s.top.toNat with ht
  have hkt : (s.top + 1).toNat = t + 1 := by omega
  obtain ⟨y, hy⟩ := bind_id_isSome (hlive t (by omega))
  have htl : t < s.items.length := by omega
  have htake : s.items.take (t + 1) = s.items.take t ++ [some y] := by
    rw [List.take_succ]
    simp [hy]
  have habs : sAbs s = y :: ((s.items.take t).filterMap id).reverse := by
    simp only [sAbs, hkt, htake]
    simp
  rw [h] at habs
  have hey : e = y := by injection habs
  have hrest : rest = ((s.items.take t).filterMap id).reverse := by injection habs
  subst hey
  have heq : sPop s = (⟨s.items.set t none, s.top - 1⟩, some e) := by
    simp [sPop, hemp, ← ht, hy]
  rw [heq]
  have htake_set : (s.items.set t none).take t = s.items.take t := by
    apply List.ext_getElem?
    intro j
    rw [List.getElem?_take, List.getElem?_take]
    by_cases hj : j < t
    · rw [if_pos hj, if_pos hj, List.getElem?_set_ne (by omega)]
    · rw [if_neg hj, if_neg hj]
  refine ⟨rfl, ⟨by simp only; omega, ?_, ?_⟩, ?_⟩
  · simp only
    rw [List.length_set]
    omega
  · intro i hi
    simp only at hi ⊢
    have hit : i < t := by omega
    rw [List.getElem?_set_ne (by omega)]
    exact hlive i (by omega)
  · simp only [sAbs]
    have : (s.top - 1 + 1).toNat = t := by omega
    rw [this, htake_set, hrest]

/-- Popping a non-empty stack and pushing the popped value back restores
the exact state (the pop/push shuffle used by `getProcessingHistory`). -/
theorem sPop_pushOpt_roundtrip {α : Type} (s : StackS α) (hinv : SInv s)
    (hemp : sIsEmpty s = false) : sPushOpt (sPop s).1 (sPop s).2 = s := by
  obtain ⟨htop, hlen, hlive⟩ := hinv
  have hne : s.top ≠ -1 := by simpa [sIsEmpty] using hemp
  have htop0 : 0 ≤ s.top := by omega
  set t := s.top.toNat with ht
  obtain ⟨y, hy⟩ := bind_id_isSome (hlive t (by omega))
  have htl : t < s.items.length := by omega
  have heq : sPop s = (⟨s.items.set t none, s.top - 1⟩, some y) := by
    simp [sPop, hemp, ← ht, hy]
  rw [heq]
  simp only [sPushOpt]
  have ht2 : (s.top - 1 + 1).toNat = t := by omega
  rw [ht2]
  have hlen2 : t < (s.items.set t none).length := by
    rw [List.length_set]; omega
  rw [storeAt, if_pos hlen2, List.set_set, set_eq_of_getElem? _ _ _ hy]
  have : s.top - 1 + 1 = s.top := by omega
  rw [this]

theorem sPeek_eq_sPop_snd {α : Type} (s : StackS α) :
    sPeek s = (sPop s).2 := by
  by_cases h : sIsEmpty s
  · simp [sPeek, sPop, h]
  · simp [sPeek, sPop, h]

theorem qToArray_eq_qAbs {α : Type} (s : QState α) (hinv : QInv s) :
    qToArray s = qAbs s := by
  obtain ⟨hfr, hlen, hlive⟩ := hinv
  simp only [qToArray, qAbs]
  rw [List.take_of_length_le (by rw [List.length_drop]; omega)]

theorem runQueue_aux {α : Type} (ops : List (QOp α)) :
    ∀ (s : QState α) (outs : List (Option α)), QInv s →
    QInv (ops.foldl qStep (s, outs)).1 ∧
    ((ops.foldl qStep (s, outs)).2).filterMap id ++
        qAbs (ops.foldl qStep (s, outs)).1
      = (outs.filterMap id ++ qAbs s) ++ enqValues ops := by
  induction ops with
  | nil =>
    intro s outs hinv
    refine ⟨hinv, ?_⟩
    simp [enqValues]
  | cons op rest ih =>
    intro s outs hinv
    cases op with
    | enq x =>
      obtain ⟨hinv', habs'⟩ := qEnqueue_inv s x hinv
      have hih := ih (qEnqueue s x) outs hinv'
      simp only [List.foldl_cons, qStep]
      refine ⟨hih.1, ?_⟩
      rw [hih.2, habs']
      simp [enqValues, List.append_assoc]
    | deq =>
      cases habs : qAbs s with
      | nil =>
        have heq : qDequeue s = (s, none) := qDequeue_empty s habs hinv
        have hih := ih s (outs ++ [none]) hinv
        simp only [List.foldl_cons, qStep, heq]
        refine ⟨hih.1, ?_⟩
        rw [hih.2]
        simp [enqValues, habs]
      | cons x xs =>
        obtain ⟨hret, hinv', habs'⟩ := qDequeue_cons s x xs habs hinv
        have hih := ih (qDequeue s).1 (outs ++ [(qDequeue s).2]) hinv'
        simp only [List.foldl_cons, qStep]
        refine ⟨hih.1, ?_⟩
        rw [hih.2, habs', hret]
        simp [enqValues, List.append_assoc]

/-! ### Strict-total-order facts -/

theorem IsSTO.irrefl {α : Type} {r : α → α → Bool} (h : IsSTO r) (a : α) :
    r a a = false := h.1 a

theorem IsSTO.asym {α : Type} {r : α → α → Bool} (h : IsSTO r) {a b : α}
    (hab : r a b = true) : r b a = false := by
  by_contra hba
  rw [Bool.not_eq_false] at hba
  have := h.2.1 a b a hab hba
  rw [h.1 a] at this
  exact Bool.noConfusion this

theorem IsSTO.nle_trans {α : Type} {r : α → α → Bool} (h : IsSTO r) {a b c : α}
    (hab : r a b = false) (hbc : r b c = false) : r a c = false := by
  by_cases heq : a = b
  · subst heq; exact hbc
  · by_contra hac
    rw [Bool.not_eq_false] at hac
    rcases h.2.2 a b heq with hr | hr
    · rw [hr] at hab; exact Bool.noConfusion hab
    · have := h.2.1 b a c hr hac
      rw [hbc] at this; exact Bool.noConfusion this

/-! ### Insertion sort -/

theorem insRev_perm {α : Type} (r : α → α → Bool) (key : α) (l : List α) :
    (insRev r key l).Perm (key :: l) := by
  induction l with
  | nil => exact List.Perm.refl _
  | cons b l ih =>
    simp only [insRev]
    by_cases hb : r b key
    · rw [if_pos hb]
      exact (ih.cons b).trans (List.Perm.swap key b l)
    · rw [if_neg hb]

theorem foldl_insRev_perm {α : Type} (r : α → α → Bool) :
    ∀ (arr acc : List α),
      (arr.foldl (fun a x => insRev r x a) acc).Perm (arr ++ acc) := by
  intro arr
  induction arr with
  | nil => intro acc; simp
  | cons x rest ih =>
    intro acc
    simp only [List.foldl_cons, List.cons_append]
    have s1 := ih (insRev r x acc)
    have s2 : (rest ++ insRev r x acc).Perm (rest ++ (x :: acc)) :=
      List.Perm.append_left rest (insRev_perm r x acc)
    have s3 : (rest ++ (x :: acc)).Perm (x :: (rest ++ acc)) :=
      List.perm_middle
    exact (s1.trans s2).trans s3

theorem insertionSortL_perm {α : Type} (r : α → α → Bool) (arr : List α) :
    (insertionSortL r arr).Perm arr := by
  simp only [insertionSortL]
  have := (List.reverse_perm _).trans (foldl_insRev_perm r arr [])
  simpa using this

theorem insRev_pairwise {α : Type} {r : α → α → Bool} (h : IsSTO r)
    (key : α) (l : List α) (hl : l.Pairwise (fun a b => r b a = false)) :
    (insRev r key l).Pairwise (fun a b => r b a = false) := by
  induction l with
  | nil => simp [insRev]
  | cons b l ih =>
    rw [List.pairwise_cons] at hl
    simp only [insRev]
    by_cases hb : r b key
    · rw [if_pos hb]
      rw [List.pairwise_cons]
      refine ⟨?_, ih hl.2⟩
      intro z hz
      rcases List.mem_cons.mp ((insRev_perm r key l).mem_iff.mp hz) with hz | hz
      · subst hz; exact h.asym hb
      · exact hl.1 z hz
    · rw [if_neg hb]
      rw [List.pairwise_cons]
      refine ⟨?_, List.pairwise_cons.mpr hl⟩
      intro z hz
      rcases List.mem_cons.mp hz with hz | hz
      · subst hz
        simpa using hb
      · exact h.nle_trans (hl.1 z hz) (by simpa using hb)

theorem foldl_insRev_pairwise {α : Type} {r : α → α → Bool} (h : IsSTO r) :
    ∀ (arr acc : List α), acc.Pairwise (fun a b => r b a = false) →
      (arr.foldl (fun a x => insRev r x a) acc).Pairwise
        (fun a b => r b a = false) := by
  intro arr
  induction arr with
  | nil => intro acc hacc; simpa using hacc
  | cons x rest ih =>
    intro acc hacc
    simp only [List.foldl_cons]
    exact ih _ (insRev_pairwise h x acc hacc)

theorem insertionSortL_sorted {α : Type} {r : α → α → Bool} (h : IsSTO r)
    (arr : List α) : SortedB r (insertionSortL r arr) := by
  simp only [SortedB, insertionSortL]
  rw [List.pairwise_reverse]
  exact foldl_insRev_pairwise h arr [] (by simp)

/-! ### Selection sort -/

theorem scanSel_none_eq {α : Type} (r : α → α → Bool) :
    ∀ (l : List α) (cand m : α),
      scanSel r cand l = (m, none) → m = cand := by
  intro l
  induction l with
  | nil =>
    intro cand m hscan
    simp only [scanSel, Prod.mk.injEq] at hscan
    exact hscan.1.symm
  | cons z l ih =>
    intro cand m hscan
    simp only [scanSel] at hscan
    by_cases hcz : r cand z
    · rw [if_pos hcz] at hscan
      rcases hrec : scanSel r z l with ⟨m', o⟩
      rw [hrec] at hscan
      cases o with
      | none => simp at hscan
      | some pp => simp at hscan
    · rw [if_neg hcz] at hscan
      rcases hrec : scanSel r cand l with ⟨m', o⟩
      rw [hrec] at hscan
      cases o with
      | none =>
        simp only [Prod.mk.injEq] at hscan
        rw [hscan.1] at hrec
        exact ih cand m hrec
      | some pp =>
        rcases pp with ⟨pre', post'⟩
        simp at hscan

theorem scanSel_shape {α : Type} (r : α → α → Bool) :
    ∀ (l : List α) (cand m : α) (pre post : List α),
      scanSel r cand l = (m, some (pre, post)) → l = pre ++ m :: post := by
  intro l
  induction l with
  | nil =>
    intro cand m pre post hscan
    simp [scanSel] at hscan
  | cons z l ih =>
    intro cand m pre post hscan
    simp only [scanSel] at hscan
    by_cases hcz : r cand z
    · rw [if_pos hcz] at hscan
      rcases hrec : scanSel r z l with ⟨m', o⟩
      rw [hrec] at hscan
      cases o with
      | none =>
        simp only [Prod.mk.injEq, Option.some.injEq] at hscan
        obtain ⟨hm, hpre, hpost⟩ := hscan
        have hz : m' = z := scanSel_none_eq r l z m' hrec
        subst hm
        rw [← hpre, ← hpost, hz]
        simp
      | some pp =>
        rcases pp with ⟨pre', post'⟩
        simp only [Prod.mk.injEq, Option.some.injEq] at hscan
        obtain ⟨hm, hpre, hpost⟩ := hscan
        have hl : l = pre' ++ m' :: post' := ih z m' pre' post' hrec
        subst hm
        rw [← hpre, ← hpost, hl]
        simp
    · rw [if_neg hcz] at hscan
      rcases hrec : scanSel r cand l with ⟨m', o⟩
      rw [hrec] at hscan
      cases o with
      | none => simp at hscan
      | some pp =>
        rcases pp with ⟨pre', post'⟩
        simp only [Prod.mk.injEq, Option.some.injEq] at hscan
        obtain ⟨hm, hpre, hpost⟩ := hscan
        have hl : l = pre' ++ m' :: post' := ih cand m' pre' post' hrec
        subst hm
        rw [← hpre, ← hpost, hl]
        simp

theorem scanSel_fst {α : Type} (r : α → α → Bool) (cand z : α) (l : List α)
    (hcz : r cand z = true) :
    (scanSel r cand (z :: l)).1 = (scanSel r z l).1 := by
  simp only [scanSel, if_pos hcz]
  rcases hrec : scanSel r z l with ⟨m', o⟩
  cases o with
  | none => simp
  | some pp => rcases pp with ⟨pre', post'⟩; simp

theorem scanSel_fst_neg {α : Type} (r : α → α → Bool) (cand z : α) (l : List α)
    (hcz : r cand z = false) :
    (scanSel r cand (z :: l)).1 = (scanSel r cand l).1 := by
  simp only [scanSel, hcz, Bool.false_eq_true, if_false]
  rcases hrec : scanSel r cand l with ⟨m', o⟩
  cases o with
  | none => simp
  | some pp => rcases pp with ⟨pre', post'⟩; simp

theorem scanSel_min {α : Type} {r : α → α → Bool} (h : IsSTO r) :
    ∀ (l : List α) (cand : α),
      r (scanSel r cand l).1 cand = false ∧
      ∀ z ∈ l, r (scanSel r cand l).1 z = false := by
  intro l
  induction l with
  | nil =>
    intro cand
    exact ⟨h.irrefl cand, by simp⟩
  | cons z l ih =>
    intro cand
    by_cases hcz : r cand z
    · rw [scanSel_fst r cand z l hcz]
      obtain ⟨ih1, ih2⟩ := ih z
      refine ⟨?_, ?_⟩
      · by_contra hmc
        rw [Bool.not_eq_false] at hmc
        have := h.2.1 _ cand z hmc hcz
        rw [ih1] at this
        exact Bool.noConfusion this
      · intro w hw
        rcases List.mem_cons.mp hw with hw | hw
        · subst hw; exact ih1
        · exact ih2 w hw
    · have hcz' : r cand z = false := by simpa using hcz
      rw [scanSel_fst_neg r cand z l hcz']
      obtain ⟨ih1, ih2⟩ := ih cand
      refine ⟨ih1, ?_⟩
      intro w hw
      rcases List.mem_cons.mp hw with hw | hw
      · subst hw
        exact h.nle_trans ih1 hcz'
      · exact ih2 w hw

theorem selSortAux_perm {α : Type} (r : α → α → Bool) :
    ∀ (fuel : Nat) (l : List α), (selSortAux r fuel l).Perm l := by
  intro fuel
  induction fuel with
  | zero => intro l; exact List.Perm.refl _
  | succ fuel ih =>
    intro l
    cases l with
    | nil => exact List.Perm.refl _
    | cons y ys =>
      simp only [selSortAux]
      rcases hscan : scanSel r y ys with ⟨m, o⟩
      cases o with
      | none =>
        exact List.Perm.cons y (ih ys)
      | some pp =>
        rcases pp with ⟨pre, post⟩
        have hshape : ys = pre ++ m :: post := scanSel_shape r ys y m pre post hscan
        have p1 : (m :: selSortAux r fuel (pre ++ y :: post)).Perm
            (m :: (pre ++ y :: post)) := (ih _).cons m
        have p2 : (m :: (pre ++ y :: post)).Perm (m :: (y :: (pre ++ post))) :=
          List.perm_middle.cons m
        have p3 : (m :: y :: (pre ++ post)).Perm (y :: m :: (pre ++ post)) :=
          List.Perm.swap y m (pre ++ post)
        have p4 : (y :: m :: (pre ++ post)).Perm (y :: (pre ++ m :: post)) :=
          (List.perm_middle.symm).cons y
        rw [hshape]
        exact ((p1.trans p2).trans p3).trans p4

theorem selSortAux_sorted {α : Type} {r : α → α → Bool} (h : IsSTO r) :
    ∀ (fuel : Nat) (l : List α), l.length ≤ fuel →
      SortedB r (selSortAux r fuel l) := by
  intro fuel
  induction fuel with
  | zero =>
    intro l hl
    have : l = [] := List.length_eq_zero.mp (Nat.le_zero.mp hl)
    subst this
    simp [SortedB, selSortAux]
  | succ fuel ih =>
    intro l hl
    cases l with
    | nil => simp [SortedB, selSortAux]
    | cons y ys =>
      simp only [selSortAux]
      rcases hscan : scanSel r y ys with ⟨m, o⟩
      cases o with
      | none =>
        have hm : m = y := scanSel_none_eq r ys y m hscan
        rw [SortedB, List.pairwise_cons]
        refine ⟨?_, ih ys (by simpa using Nat.le_of_succ_le_succ hl)⟩
        intro z hz
        have hz' : z ∈ ys := (selSortAux_perm r fuel ys).mem_iff.mp hz
        have := (scanSel_min h ys y).2 z hz'
        rw [hscan] at this
        simp only at this
        rw [← hm]
        exact this
      | some pp =>
        rcases pp with ⟨pre, post⟩
        have hshape : ys = pre ++ m :: post := scanSel_shape r ys y m pre post hscan
        have hmin := scanSel_min h ys y
        rw [hscan] at hmin
        simp only at hmin
        rw [SortedB, List.pairwise_cons]
        have hlen : (pre ++ y :: post).length ≤ fuel := by
          have h1 : ys.length = pre.length + 1 + post.length := by
            rw [hshape]; simp; omega
          have h2 : (pre ++ y :: post).length = pre.length + 1 + post.length := by
            simp; omega
          simp only [List.length_cons] at hl
          omega
        refine ⟨?_, ih (pre ++ y :: post) hlen⟩
        intro z hz
        have hz' : z ∈ pre ++ y :: post :=
          (selSortAux_perm r fuel _).mem_iff.mp hz
        rcases List.mem_append.mp hz' with hz' | hz'
        · exact hmin.2 z (by rw [hshape]; exact List.mem_append_left _ hz')
        · rcases List.mem_cons.mp hz' with hz' | hz'
          · subst hz'; exact hmin.1
          · exact hmin.2 z
              (by rw [hshape]
                  exact List.mem_append_right _ (List.mem_cons_of_mem m hz'))

theorem selectionSortL_perm {α : Type} (r : α → α → Bool) (l : List α) :
    (selectionSortL r l).Perm l := selSortAux_perm r l.length l

theorem selectionSortL_sorted {α : Type} {r : α → α → Bool} (h : IsSTO r)
    (l : List α) : SortedB r (selectionSortL r l) :=
  selSortAux_sorted h l.length l (Nat.le_refl _)

/-! ### Quick sort -/

theorem rotate1_perm {α : Type} (l : List α) : (rotate1 l).Perm l := by
  cases l with
  | nil => exact List.Perm.refl _
  | cons y ys => exact List.perm_append_singleton y ys

theorem lomuto_aux {α : Type} (r : α → α → Bool) (pivot : α) :
    ∀ (body s g : List α),
      (body.foldl
        (fun acc x =>
          if r x pivot then (acc.1, acc.2 ++ [x])
          else (acc.1 ++ [x], rotate1 acc.2)) (s, g)).1
        = s ++ body.filter (fun x => !(r x pivot)) ∧
      ((body.foldl
        (fun acc x =>
          if r x pivot then (acc.1, acc.2 ++ [x])
          else (acc.1 ++ [x], rotate1 acc.2)) (s, g)).2).Perm
        (g ++ body.filter (fun x => r x pivot)) := by
  intro body
  induction body with
  | nil => intro s g; simp
  | cons x rest ih =>
    intro s g
    simp only [List.foldl_cons]
    by_cases hx : r x pivot
    · rw [if_pos hx]
      obtain ⟨ih1, ih2⟩ := ih s (g ++ [x])
      have hfneg : List.filter (fun t => !r t pivot) (x :: rest)
          = List.filter (fun t => !r t pivot) rest := by
        simp [List.filter_cons, hx]
      have hfpos : List.filter (fun t => r t pivot) (x :: rest)
          = x :: List.filter (fun t => r t pivot) rest := by
        simp [List.filter_cons, hx]
      refine ⟨?_, ?_⟩
      · rw [ih1, hfneg]
      · rw [hfpos]
        rwa [List.append_assoc, List.singleton_append] at ih2
    · rw [if_neg hx]
      have hxf : r x pivot = false := by simpa using hx
      obtain ⟨ih1, ih2⟩ := ih (s ++ [x]) (rotate1 g)
      have hfneg : List.filter (fun t => !r t pivot) (x :: rest)
          = x :: List.filter (fun t => !r t pivot) rest := by
        simp [List.filter_cons, hxf]
      have hfpos : List.filter (fun t => r t pivot) (x :: rest)
          = List.filter (fun t => r t pivot) rest := by
        simp [List.filter_cons, hxf]
      refine ⟨?_, ?_⟩
      · rw [ih1, hfneg, List.append_assoc, List.singleton_append]
      · rw [hfpos]
        exact ih2.trans (List.Perm.append_right _ (rotate1_perm g))

theorem lomuto_fst {α : Type} (r : α → α → Bool) (pivot : α) (body : List α) :
    (lomuto r pivot body).1 = body.filter (fun x => !(r x pivot)) := by
  have := (lomuto_aux r pivot body [] []).1
  simpa [lomuto] using this

theorem lomuto_snd_perm {α : Type} (r : α → α → Bool) (pivot : α)
    (body : List α) :
    ((lomuto r pivot body).2).Perm (body.filter (fun x => r x pivot)) := by
  have := (lomuto_aux r pivot body [] []).2
  simpa [lomuto] using this

theorem quickSortAux_perm {α : Type} (r : α → α → Bool) :
    ∀ (fuel : Nat) (l : List α), l.length ≤ fuel →
      (quickSortAux r fuel l).Perm l := by
  intro fuel
  induction fuel with
  | zero => intro l _; exact List.Perm.refl _
  | succ fuel ih =>
    intro l hl
    cases l with
    | nil => exact List.Perm.refl _
    | cons x xs =>
      simp only [quickSortAux]
      set pivot := (x :: xs).getLast (List.cons_ne_nil x xs) with hpiv
      set body := (x :: xs).dropLast with hbody
      have hsplit : body ++ [pivot] = x :: xs :=
        List.dropLast_append_getLast (List.cons_ne_nil x xs)
      have hblen : body.length = xs.length := by
        rw [hbody]; simp
      have hxslen : xs.length ≤ fuel := by
        simp only [List.length_cons] at hl; omega
      have hp1 := lomuto_fst r pivot body
      have hp2 := lomuto_snd_perm r pivot body
      have hlen1 : (lomuto r pivot body).1.length ≤ fuel := by
        rw [hp1]
        calc (body.filter _).length ≤ body.length := List.length_filter_le _ _
          _ ≤ fuel := by omega
      have hlen2 : (lomuto r pivot body).2.length ≤ fuel := by
        rw [hp2.length_eq]
        calc (body.filter _).length ≤ body.length := List.length_filter_le _ _
          _ ≤ fuel := by omega
      have q1 := ih _ hlen1
      have q2 := ih _ hlen2
      have step1 : (quickSortAux r fuel (lomuto r pivot body).1 ++
          pivot :: quickSortAux r fuel (lomuto r pivot body).2).Perm
          ((lomuto r pivot body).1 ++ pivot :: (lomuto r pivot body).2) :=
        List.Perm.append q1 (q2.cons pivot)
      have step2 : ((lomuto r pivot body).1 ++
          pivot :: (lomuto r pivot body).2).Perm
          (body.filter (fun t => !(r t pivot)) ++
            pivot :: body.filter (fun t => r t pivot)) := by
        rw [hp1]
        exact List.Perm.append_left _ (hp2.cons pivot)
      have step3 : (body.filter (fun t => !(r t pivot)) ++
          pivot :: body.filter (fun t => r t pivot)).Perm
          (pivot :: (body.filter (fun t => !(r t pivot)) ++
            body.filter (fun t => r t pivot))) := List.perm_middle
      have step4 : (body.filter (fun t => !(r t pivot)) ++
          body.filter (fun t => r t pivot)).Perm body := by
        have := List.filter_append_perm (fun t => r t pivot) body
        exact (List.perm_append_comm.trans this)
      have step5 : (pivot :: (body.filter (fun t => !(r t pivot)) ++
          body.filter (fun t => r t pivot))).Perm (pivot :: body) :=
        step4.cons pivot
      have step6 : (pivot :: body).Perm (x :: xs) := by
        rw [← hsplit]
        exact (List.perm_append_singleton pivot body).symm
      exact ((((step1.trans step2).trans step3).trans step5).trans step6)

theorem quickSortAux_sorted {α : Type} {r : α → α → Bool} (h : IsSTO r) :
    ∀ (fuel : Nat) (l : List α), l.length ≤ fuel →
      SortedB r (quickSortAux r fuel l) := by
  intro fuel
  induction fuel with
  | zero =>
    intro l hl
    have : l = [] := List.length_eq_zero.mp (Nat.le_zero.mp hl)
    subst this
    simp [SortedB, quickSortAux]
  | succ fuel ih =>
    intro l hl
    cases l with
    | nil => simp [SortedB, quickSortAux]
    | cons x xs =>
      simp only [quickSortAux]
      set pivot := (x :: xs).getLast (List.cons_ne_nil x xs) with hpiv
      set body := (x :: xs).dropLast with hbody
      have hblen : body.length = xs.length := by rw [hbody]; simp
      have hxslen : xs.length ≤ fuel := by
        simp only [List.length_cons] at hl; omega
      have hp1 := lomuto_fst r pivot body
      have hp2 := lomuto_snd_perm r pivot body
      have hlen1 : (lomuto r pivot body).1.length ≤ fuel := by
        rw [hp1]
        calc (body.filter _).length ≤ body.length := List.length_filter_le _ _
          _ ≤ fuel := by omega
      have hlen2 : (lomuto r pivot body).2.length ≤ fuel := by
        rw [hp2.length_eq]
        calc (body.filter _).length ≤ body.length := List.length_filter_le _ _
          _ ≤ fuel := by omega
      have hmem1 : ∀ z ∈ quickSortAux r fuel (lomuto r pivot body).1,
          r z pivot = false := by
        intro z hz
        have hz1 : z ∈ (lomuto r pivot body).1 :=
          (quickSortAux_perm r fuel _ hlen1).mem_iff.mp hz
        rw [hp1] at hz1
        have := (List.mem_filter.mp hz1).2
        simpa using this
      have hmem2 : ∀ z ∈ quickSortAux r fuel (lomuto r pivot body).2,
          r z pivot = true := by
        intro z hz
        have hz1 : z ∈ (lomuto r pivot body).2 :=
          (quickSortAux_perm r fuel _ hlen2).mem_iff.mp hz
        have hz2 : z ∈ body.filter (fun t => r t pivot) := hp2.mem_iff.mp hz1
        exact (List.mem_filter.mp hz2).2
      rw [SortedB, List.pairwise_append]
      refine ⟨ih _ hlen1, ?_, ?_⟩
      · rw [List.pairwise_cons]
        exact ⟨fun z hz => h.asym (hmem2 z hz), ih _ hlen2⟩
      · intro u hu v hv
        rcases List.mem_cons.mp hv with hv | hv
        · subst hv; exact hmem1 u hu
        · by_contra huv
          rw [Bool.not_eq_false] at huv
          have := h.2.1 u v pivot huv (hmem2 v hv)
          rw [hmem1 u hu] at this
          exact Bool.noConfusion this

theorem quickSortL_perm {α : Type} (r : α → α → Bool) (l : List α) :
    (quickSortL r l).Perm l := quickSortAux_perm r l.length l (Nat.le_refl _)

theorem quickSortL_sorted {α : Type} {r : α → α → Bool} (h : IsSTO r)
    (l : List α) : SortedB r (quickSortL r l) :=
  quickSortAux_sorted h l.length l (Nat.le_refl _)

/-! ### Merge sort -/

theorem mergeL_nil_left {α : Type} (r : α → α → Bool) (ys : List α) :
    mergeL r [] ys = ys := by
  rw [mergeL]

theorem mergeL_nil_right {α : Type} (r : α → α → Bool) (x : α) (xs : List α) :
    mergeL r (x :: xs) [] = x :: xs := by
  rw [mergeL]

theorem mergeL_cons_cons {α : Type} (r : α → α → Bool) (x y : α)
    (xs ys : List α) :
    mergeL r (x :: xs) (y :: ys) =
      if r x y then y :: mergeL r (x :: xs) ys
      else x :: mergeL r xs (y :: ys) := by
  rw [mergeL]

theorem mergeL_perm {α : Type} (r : α → α → Bool) :
    ∀ (xs ys : List α), (mergeL r xs ys).Perm (xs ++ ys) := by
  intro xs
  induction xs with
  | nil =>
    intro ys
    rw [mergeL_nil_left]
    exact List.Perm.refl _
  | cons x xs ihx =>
    intro ys
    induction ys with
    | nil =>
      rw [mergeL_nil_right]
      simp
    | cons y ys ihy =>
      rw [mergeL_cons_cons]
      by_cases hxy : r x y
      · rw [if_pos hxy]
        exact (ihy.cons y).trans List.perm_middle.symm
      · rw [if_neg hxy]
        exact ((ihx (y :: ys)).cons x)

theorem mergeL_sorted {α : Type} {r : α → α → Bool} (h : IsSTO r) :
    ∀ (xs ys : List α), SortedB r xs → SortedB r ys →
      SortedB r (mergeL r xs ys) := by
  intro xs
  induction xs with
  | nil =>
    intro ys _ hy
    rwa [mergeL_nil_left]
  | cons x xs ihx =>
    intro ys
    induction ys with
    | nil =>
      intro hx _
      rwa [mergeL_nil_right]
    | cons y ys ihy =>
      intro hx hy
      rw [SortedB, List.pairwise_cons] at hx hy
      rw [mergeL_cons_cons]
      by_cases hxy : r x y
      · rw [if_pos hxy]
        rw [SortedB, List.pairwise_cons]
        refine ⟨?_, ?_⟩
        · intro z hz
          have hz' : z ∈ (x :: xs) ++ ys :=
            (mergeL_perm r (x :: xs) ys).mem_iff.mp hz
          rcases List.mem_append.mp hz' with hz' | hz'
          · rcases List.mem_cons.mp hz' with hz' | hz'
            · subst hz'; exact h.asym hxy
            · exact h.nle_trans (h.asym hxy) (hx.1 z hz')
          · exact hy.1 z hz'
        · exact ihy (List.pairwise_cons.mpr hx) hy.2
      · rw [if_neg hxy]
        have hxy' : r x y = false := by simpa using hxy
        rw [SortedB, List.pairwise_cons]
        refine ⟨?_, ?_⟩
        · intro z hz
          have hz' : z ∈ xs ++ (y :: ys) :=
            (mergeL_perm r xs (y :: ys)).mem_iff.mp hz
          rcases List.mem_append.mp hz' with hz' | hz'
          · exact hx.1 z hz'
          · rcases List.mem_cons.mp hz' with hz' | hz'
            · subst hz'; exact hxy'
            · exact h.nle_trans hxy' (hy.1 z hz')
        · exact ihx (y :: ys) hx.2 (List.pairwise_cons.mpr hy)

theorem mergeSortL_len_le_one {α : Type} (r : α → α → Bool) (l : List α)
    (h : l.length ≤ 1) : mergeSortL r l = l := by
  rw [mergeSortL, dif_pos h]

theorem mergeSortL_of_big {α : Type} (r : α → α → Bool) (l : List α)
    (h : ¬l.length ≤ 1) :
    mergeSortL r l =
      mergeL r (mergeSortL r (l.take (l.length / 2)))
        (mergeSortL r (l.drop (l.length / 2))) := by
  rw [mergeSortL]
  rw [dif_neg h]

theorem mergeSortAux_perm {α : Type} (r : α → α → Bool) :
    ∀ (n : Nat) (l : List α), l.length ≤ n → (mergeSortL r l).Perm l := by
  intro n
  induction n with
  | zero =>
    intro l hl
    rw [mergeSortL_len_le_one r l (by omega)]
  | succ n ih =>
    intro l hl
    by_cases hsmall : l.length ≤ 1
    · rw [mergeSortL_len_le_one r l hsmall]
    · rw [mergeSortL_of_big r l hsmall]
      have htl : (l.take (l.length / 2)).length ≤ n := by
        rw [List.length_take]; omega
      have hdl : (l.drop (l.length / 2)).length ≤ n := by
        rw [List.length_drop]; omega
      have hperm := (mergeL_perm r (mergeSortL r (l.take (l.length / 2)))
        (mergeSortL r (l.drop (l.length / 2))))
      have hparts := List.Perm.append (ih _ htl) (ih _ hdl)
      have := hperm.trans hparts
      rwa [List.take_append_drop] at this

theorem mergeSortL_perm {α : Type} (r : α → α → Bool) (l : List α) :
    (mergeSortL r l).Perm l := mergeSortAux_perm r l.length l (Nat.le_refl _)

theorem mergeSortAux_sorted {α : Type} {r : α → α → Bool} (h : IsSTO r) :
    ∀ (n : Nat) (l : List α), l.length ≤ n → SortedB r (mergeSortL r l) := by
  intro n
  induction n with
  | zero =>
    intro l hl
    have : l = [] := List.length_eq_zero.mp (Nat.le_zero.mp hl)
    subst this
    rw [mergeSortL_len_le_one r [] (by simp)]
    simp [SortedB]
  | succ n ih =>
    intro l hl
    by_cases hsmall : l.length ≤ 1
    · rw [mergeSortL_len_le_one r l hsmall]
      cases l with
      | nil => simp [SortedB]
      | cons a t =>
        cases t with
        | nil => simp [SortedB]
        | cons b t2 => simp at hsmall
    · rw [mergeSortL_of_big r l hsmall]
      have htl : (l.take (l.length / 2)).length ≤ n := by
        rw [List.length_take]; omega
      have hdl : (l.drop (l.length / 2)).length ≤ n := by
        rw [List.length_drop]; omega
      exact mergeL_sorted h _ _ (ih _ htl) (ih _ hdl)

theorem mergeSortL_sorted {α : Type} {r : α → α → Bool} (h : IsSTO r)
    (l : List α) : SortedB r (mergeSortL r l) :=
  mergeSortAux_sorted h l.length l (Nat.le_refl _)

/-! ### Claim C1 -/

/-- C1: for every input array and every comparator `compare(a, b)`
meaning "a should sort after b" that is a strict total order, each of
`insertionSort`, `selectionSort`, `quickSort` and `mergeSort` returns a
`sortedArray` that is a permutation of the input and is ordered so that
no earlier element should sort after a later one under the comparator. -/
theorem claim_C1_sort_correctness {α : Type} (r : α → α → Bool)
    (h : IsSTO r) (l : List α) :
    ((insertionSortL r l).Perm l ∧ SortedB r (insertionSortL r l)) ∧
    ((selectionSortL r l).Perm l ∧ SortedB r (selectionSortL r l)) ∧
    ((quickSortL r l).Perm l ∧ SortedB r (quickSortL r l)) ∧
    ((mergeSortL r l).Perm l ∧ SortedB r (mergeSortL r l)) :=
  ⟨⟨insertionSortL_perm r l, insertionSortL_sorted h l⟩,
   ⟨selectionSortL_perm r l, selectionSortL_sorted h l⟩,
   ⟨quickSortL_perm r l, quickSortL_sorted h l⟩,
   ⟨mergeSortL_perm r l, mergeSortL_sorted h l⟩⟩

/-- Witness for C1 at the comparator `a > b` on `Fin 4` and the input
`[2, 0, 3, 1]`. -/
theorem claim_C1_sort_correctness_witness :
    IsSTO (fun a b : Fin 4 => decide (b < a)) ∧
    (((insertionSortL (fun a b : Fin 4 => decide (b < a)) [2, 0, 3, 1]).Perm
        [2, 0, 3, 1] ∧
      SortedB (fun a b : Fin 4 => decide (b < a))
        (insertionSortL (fun a b : Fin 4 => decide (b < a)) [2, 0, 3, 1])) ∧
     ((selectionSortL (fun a b : Fin 4 => decide (b < a)) [2, 0, 3, 1]).Perm
        [2, 0, 3, 1] ∧
      SortedB (fun a b : Fin 4 => decide (b < a))
        (selectionSortL (fun a b : Fin 4 => decide (b < a)) [2, 0, 3, 1])) ∧
     ((quickSortL (fun a b : Fin 4 => decide (b < a)) [2, 0, 3, 1]).Perm
        [2, 0, 3, 1] ∧
      SortedB (fun a b : Fin 4 => decide (b < a))
        (quickSortL (fun a b : Fin 4 => decide (b < a)) [2, 0, 3, 1])) ∧
     ((mergeSortL (fun a b : Fin 4 => decide (b < a)) [2, 0, 3, 1]).Perm
        [2, 0, 3, 1] ∧
      SortedB (fun a b : Fin 4 => decide (b < a))
        (mergeSortL (fun a b : Fin 4 => decide (b < a)) [2, 0, 3, 1]))) :=
  ⟨by unfold IsSTO; decide,
   claim_C1_sort_correctness (fun a b : Fin 4 => decide (b < a))
     (by unfold IsSTO; decide) [2, 0, 3, 1]⟩

/-! ### Claim C6 -/

/-- C6: for every finite sequence of enqueue and dequeue operations on a
Queue starting from empty, the sequence of elements returned by the
dequeues equals the sequence of enqueued elements restricted to those
not yet removed, in enqueue order (FIFO): the returned elements followed
by the remaining contents are exactly the enqueued elements in order,
so the dequeued sequence is the corresponding prefix of the enqueue
sequence. -/
theorem claim_C6_queue_fifo {α : Type} (ops : List (QOp α)) :
    ((runQueue ops).2.filterMap id) ++ qToArray (runQueue ops).1
      = enqValues ops ∧
    (runQueue ops).2.filterMap id
      = (enqValues ops).take ((runQueue ops).2.filterMap id).length := by
  have h := runQueue_aux ops qEmpty [] qInv_empty
  have h1 : (runQueue ops).2.filterMap id ++ qAbs (runQueue ops).1
      = enqValues ops := by
    simpa [runQueue, qAbs_empty] using h.2
  have hinv : QInv (runQueue ops).1 := by
    simpa [runQueue] using h.1
  have harr : qToArray (runQueue ops).1 = qAbs (runQueue ops).1 :=
    qToArray_eq_qAbs _ hinv
  refine ⟨by rw [harr]; exact h1, ?_⟩
  rw [← h1]
  exact (List.take_left _ _).symm

/-! ### Claim C5: stability of insertion sort and merge sort

Stability is stated on inputs tagged with their positions: if the tags
strictly increase in the input, then in the output any two elements with
equal keys still carry increasing tags.  The invariant carried through
the proofs is the strict lexicographic order on (key, tag). -/

/-- Strict lexicographic order on (key, position tag). -/
def LexLt {α κ : Type} [LinearOrder κ] (k : α → κ) (p q : α × Nat) : Prop :=
  k p.1 < k q.1 ∨ (k p.1 = k q.1 ∧ p.2 < q.2)

theorem insRev_lex {α κ : Type} [LinearOrder κ] (k : α → κ) (x : α × Nat) :
    ∀ (l : List (α × Nat)), l.Pairwise (fun p q => LexLt k q p) →
      (∀ z ∈ l, z.2 < x.2) →
      (insRev (keyCompare k) x l).Pairwise (fun p q => LexLt k q p) := by
  intro l
  induction l with
  | nil => intro _ _; simp [insRev]
  | cons b l ih =>
    intro hl hidx
    rw [List.pairwise_cons] at hl
    simp only [insRev]
    by_cases hb : keyCompare k b x
    · rw [if_pos hb]
      have hkx : k x.1 < k b.1 := by
        simpa [keyCompare] using hb
      rw [List.pairwise_cons]
      refine ⟨?_, ih hl.2 (fun z hz => hidx z (List.mem_cons_of_mem b hz))⟩
      intro z hz
      rcases List.mem_cons.mp
          ((insRev_perm (keyCompare k) x l).mem_iff.mp hz) with hz | hz
      · subst hz
        exact Or.inl hkx
      · exact hl.1 z hz
    · rw [if_neg hb]
      have hkx : k b.1 ≤ k x.1 := by
        have : ¬(k x.1 < k b.1) := by simpa [keyCompare] using hb
        exact le_of_not_lt this
      rw [List.pairwise_cons]
      constructor
      · intro z hz
        rcases List.mem_cons.mp hz with hz | hz
        · rw [hz]
          rcases lt_or_eq_of_le hkx with hlt | heq
          · exact Or.inl hlt
          · exact Or.inr ⟨heq, hidx b (List.mem_cons_self b l)⟩
        · have hzb := hl.1 z hz
          have hzx : k z.1 ≤ k x.1 := by
            rcases hzb with hlt | ⟨heq, _⟩
            · exact le_trans (le_of_lt hlt) hkx
            · exact le_trans (le_of_eq heq) hkx
          rcases lt_or_eq_of_le hzx with hlt | heq
          · exact Or.inl hlt
          · exact Or.inr ⟨heq, hidx z (List.mem_cons_of_mem b hz)⟩
      · exact List.pairwise_cons.mpr hl

theorem foldl_insRev_lex {α κ : Type} [LinearOrder κ] (k : α → κ) :
    ∀ (ip acc : List (α × Nat)),
      ip.Pairwise (fun p q => p.2 < q.2) →
      (∀ p ∈ acc, ∀ q ∈ ip, p.2 < q.2) →
      acc.Pairwise (fun p q => LexLt k q p) →
      (ip.foldl (fun a x => insRev (keyCompare k) x a) acc).Pairwise
        (fun p q => LexLt k q p) := by
  intro ip
  induction ip with
  | nil => intro acc _ _ hacc; simpa using hacc
  | cons x rest ih =>
    intro acc hinc hcross hacc
    rw [List.pairwise_cons] at hinc
    simp only [List.foldl_cons]
    apply ih _ hinc.2
    · intro p hp q hq
      rcases List.mem_cons.mp
          ((insRev_perm (keyCompare k) x acc).mem_iff.mp hp) with hp | hp
      · subst hp
        exact hinc.1 q hq
      · exact hcross p hp q (List.mem_cons_of_mem x hq)
    · exact insRev_lex k x acc hacc
        (fun z hz => hcross z hz x (List.mem_cons_self x rest))

theorem insertionSortL_lex {α κ : Type} [LinearOrder κ] (k : α → κ)
    (ip : List (α × Nat)) (hinc : ip.Pairwise (fun p q => p.2 < q.2)) :
    (insertionSortL (keyCompare k) ip).Pairwise (LexLt k) := by
  simp only [insertionSortL]
  rw [List.pairwise_reverse]
  exact foldl_insRev_lex k ip [] hinc (by simp) (by simp)

theorem mergeL_lex {α κ : Type} [LinearOrder κ] (k : α → κ) :
    ∀ (xs ys : List (α × Nat)),
      xs.Pairwise (LexLt k) → ys.Pairwise (LexLt k) →
      (∀ p ∈ xs, ∀ q ∈ ys, p.2 < q.2) →
      (mergeL (keyCompare k) xs ys).Pairwise (LexLt k) := by
  intro xs
  induction xs with
  | nil =>
    intro ys _ hy _
    rwa [mergeL_nil_left]
  | cons x xs ihx =>
    intro ys
    induction ys with
    | nil =>
      intro hx _ _
      rwa [mergeL_nil_right]
    | cons y ys ihy =>
      intro hx hy hcross
      rw [List.pairwise_cons] at hx hy
      rw [mergeL_cons_cons]
      by_cases hxy : keyCompare k x y
      · rw [if_pos hxy]
        have hky : k y.1 < k x.1 := by simpa [keyCompare] using hxy
        rw [List.pairwise_cons]
        constructor
        · intro z hz
          rcases List.mem_append.mp
              ((mergeL_perm (keyCompare k) (x :: xs) ys).mem_iff.mp hz)
              with hz | hz
          · rcases List.mem_cons.mp hz with hz | hz
            · subst hz; exact Or.inl hky
            · rcases hx.1 z hz with hlt | ⟨heq, _⟩
              · exact Or.inl (lt_trans hky hlt)
              · exact Or.inl (heq ▸ hky)
          · exact hy.1 z hz
        · apply ihy (List.pairwise_cons.mpr hx) hy.2
          intro p hp q hq
          exact hcross p hp q (List.mem_cons_of_mem y hq)
      · rw [if_neg hxy]
        have hkx : k x.1 ≤ k y.1 := by
          have : ¬(k y.1 < k x.1) := by simpa [keyCompare] using hxy
          exact le_of_not_lt this
        rw [List.pairwise_cons]
        constructor
        · intro z hz
          rcases List.mem_append.mp
              ((mergeL_perm (keyCompare k) xs (y :: ys)).mem_iff.mp hz)
              with hz | hz
          · exact hx.1 z hz
          · rcases List.mem_cons.mp hz with hz | hz
            · rw [hz]
              rcases lt_or_eq_of_le hkx with hlt | heq
              · exact Or.inl hlt
              · exact Or.inr ⟨heq, hcross x (List.mem_cons_self x xs) y
                  (List.mem_cons_self y ys)⟩
            · rcases hy.1 z hz with hlt | ⟨heq, _⟩
              · rcases lt_or_eq_of_le hkx with hlt2 | heq2
                · exact Or.inl (lt_trans hlt2 hlt)
                · exact Or.inl (heq2 ▸ hlt)
              · rcases lt_or_eq_of_le hkx with hlt2 | heq2
                · exact Or.inl (heq ▸ hlt2)
                · exact Or.inr ⟨heq2.trans heq,
                    hcross x (List.mem_cons_self x xs) z
                      (List.mem_cons_of_mem y hz)⟩
        · apply ihx (y :: ys) hx.2 (List.pairwise_cons.mpr hy)
          intro p hp q hq
          exact hcross p (List.mem_cons_of_mem x hp) q hq

theorem mergeSortAux_lex {α κ : Type} [LinearOrder κ] (k : α → κ) :
    ∀ (n : Nat) (l : List (α × Nat)), l.length ≤ n →
      l.Pairwise (fun p q => p.2 < q.2) →
      (mergeSortL (keyCompare k) l).Pairwise (LexLt k) := by
  intro n
  induction n with
  | zero =>
    intro l hl _
    have : l = [] := List.length_eq_zero.mp (Nat.le_zero.mp hl)
    subst this
    rw [mergeSortL_len_le_one _ [] (by simp)]
    simp
  | succ n ih =>
    intro l hl hinc
    by_cases hsmall : l.length ≤ 1
    · rw [mergeSortL_len_le_one _ l hsmall]
      cases l with
      | nil => simp
      | cons a t =>
        cases t with
        | nil => simp
        | cons b t2 => simp at hsmall
    · rw [mergeSortL_of_big _ l hsmall]
      have htl : (l.take (l.length / 2)).length ≤ n := by
        rw [List.length_take]; omega
      have hdl : (l.drop (l.length / 2)).length ≤ n := by
        rw [List.length_drop]; omega
      have hsplit : l.take (l.length / 2) ++ l.drop (l.length / 2) = l :=
        List.take_append_drop _ l
      have hpair := hsplit ▸ hinc
      rw [List.pairwise_append] at hpair
      apply mergeL_lex k _ _
        (ih _ htl hpair.1) (ih _ hdl hpair.2.1)
      intro p hp q hq
      exact hpair.2.2 p
        ((mergeSortAux_perm (keyCompare k) n _ htl).mem_iff.mp hp) q
        ((mergeSortAux_perm (keyCompare k) n _ hdl).mem_iff.mp hq)

/-- C5: for every input array of elements carrying keys (tagged here
with their input positions) and the key-induced comparator, both
`insertionSort` and `mergeSort` preserve the relative input order of
equal-key elements in `sortedArray`: when position tags strictly
increase in the input, any two equal-key elements of the output carry
increasing tags. -/
theorem claim_C5_stability {α κ : Type} [LinearOrder κ] (k : α → κ)
    (ip : List (α × Nat)) (hinc : ip.Pairwise (fun p q => p.2 < q.2)) :
    (insertionSortL (keyCompare k) ip).Pairwise
      (fun p q => k p.1 = k q.1 → p.2 < q.2) ∧
    (mergeSortL (keyCompare k) ip).Pairwise
      (fun p q => k p.1 = k q.1 → p.2 < q.2) := by
  constructor
  · apply (insertionSortL_lex k ip hinc).imp
    intro p q hpq heq
    rcases hpq with hlt | ⟨_, hidx⟩
    · exact absurd hlt (by rw [heq]; exact lt_irrefl _)
    · exact hidx
  · apply (mergeSortAux_lex k ip.length ip (Nat.le_refl _) hinc).imp
    intro p q hpq heq
    rcases hpq with hlt | ⟨_, hidx⟩
    · exact absurd hlt (by rw [heq]; exact lt_irrefl _)
    · exact hidx

/-- Witness for C5: keys with duplicates (`n % 10`) on the tagged input
`[(3, 0), (13, 1), (7, 2)]`. -/
theorem claim_C5_stability_witness :
    ([((3 : Nat), (0 : Nat)), (13, 1), (7, 2)].Pairwise
      (fun p q => p.2 < q.2)) ∧
    ((insertionSortL (keyCompare (fun n : Nat => n % 10))
        [(3, 0), (13, 1), (7, 2)]).Pairwise
      (fun p q => p.1 % 10 = q.1 % 10 → p.2 < q.2) ∧
     (mergeSortL (keyCompare (fun n : Nat => n % 10))
        [(3, 0), (13, 1), (7, 2)]).Pairwise
      (fun p q => p.1 % 10 = q.1 % 10 → p.2 < q.2)) :=
  ⟨by decide,
   claim_C5_stability (fun n : Nat => n % 10) [(3, 0), (13, 1), (7, 2)]
     (by decide)⟩

/-! ### Claim C9: fuzzy threshold monotonicity -/

theorem fuzzyScan_mono {α : Type} (getKey : α → String) (ql : String)
    (qlen : Nat) (t1 t2 : ℚ) (h : t1 ≤ t2) :
    ∀ (l : List α) (i : Nat) (m : FuzzyMatch α),
      m ∈ fuzzyScan getKey ql qlen t1 l i →
      m ∈ fuzzyScan getKey ql qlen t2 l i := by
  intro l
  induction l with
  | nil => intro i m hm; simp [fuzzyScan] at hm
  | cons x rest ih =>
    intro i m hm
    simp only [fuzzyScan] at hm ⊢
    rcases List.mem_append.mp hm with hm | hm
    · apply List.mem_append_left
      split at hm
      · next hd =>
          rw [if_pos (le_trans hd h)]
          exact hm
      · exact absurd hm (List.not_mem_nil m)
    · exact List.mem_append_right _ (ih (i + 1) m hm)

/-- C9: for every data array, query, key function, and pair of
thresholds `t1 ≤ t2`, every entry of `fuzzySearch(data, query, key,
t1).matches` is also an entry of `fuzzySearch(data, query, key,
t2).matches`: raising the distance threshold never shrinks the match
set. -/
theorem claim_C9_fuzzy_threshold_monotone {α : Type} (data : List α)
    (query : String) (getKey : α → String) (t1 t2 : ℚ) (h : t1 ≤ t2) :
    ∀ m ∈ (fuzzySearch data query getKey t1).matches,
      m ∈ (fuzzySearch data query getKey t2).matches := by
  intro m hm
  simp only [fuzzySearch] at hm ⊢
  have hm' := (mergeSortL_perm
    (fun a b : FuzzyMatch α => decide (a.similarity < b.similarity))
    _).mem_iff.mp hm
  exact (mergeSortL_perm _ _).mem_iff.mpr
    (fuzzyScan_mono getKey (strLower query) query.length t1 t2 h data 0 m hm')

/-- Witness for C9 at thresholds 0 ≤ 1 over the data `["ab", "zzz"]`
with query `"ab"`. -/
theorem claim_C9_fuzzy_threshold_monotone_witness :
    ((0 : ℚ) ≤ 1) ∧
    (∀ m ∈ (fuzzySearch ["ab", "zzz"] "ab" id (0 : ℚ)).matches,
      m ∈ (fuzzySearch ["ab", "zzz"] "ab" id (1 : ℚ)).matches) :=
  ⟨by norm_num,
   claim_C9_fuzzy_threshold_monotone ["ab", "zzz"] "ab" id 0 1 (by norm_num)⟩

/-! ### Claim C10: hash search returns the last duplicate, linear the
first -/

theorem find?_map_replace_ne {κ β : Type} [DecidableEq κ] (k key : κ)
    (v : β) (hne : key ≠ k) :
    ∀ tbl : List (κ × β),
      (tbl.map (fun e => if e.1 = k then (k, v) else e)).find?
          (fun e => decide (e.1 = key))
        = tbl.find? (fun e => decide (e.1 = key)) := by
  intro tbl
  induction tbl with
  | nil => simp
  | cons e rest ih =>
    simp only [List.map_cons, List.find?_cons]
    by_cases he : e.1 = k
    · rw [if_pos he]
      have h1 : (decide ((k, v).1 = key)) = false := by
        simp; exact fun hh => hne hh.symm
      have h2 : (decide (e.1 = key)) = false := by
        simp; rw [he]; exact fun hh => hne hh.symm
      rw [h1, h2]
      exact ih
    · rw [if_neg he]
      cases hd : decide (e.1 = key) with
      | true => rfl
      | false => exact ih

theorem find?_map_replace_eq {κ β : Type} [DecidableEq κ] (k : κ) (v : β) :
    ∀ tbl : List (κ × β),
      (tbl.map (fun e => if e.1 = k then (k, v) else e)).find?
          (fun e => decide (e.1 = k))
        = if tbl.any (fun e => decide (e.1 = k)) then some (k, v) else none := by
  intro tbl
  induction tbl with
  | nil => simp
  | cons e rest ih =>
    simp only [List.map_cons, List.any_cons]
    by_cases he : e.1 = k
    · rw [if_pos he]
      have h2 : (decide (e.1 = k)) = true := by simpa using he
      rw [List.find?_cons_of_pos _ (by simp)]
      simp [h2]
    · rw [if_neg he]
      have h2 : (decide (e.1 = k)) = false := by simpa using he
      rw [List.find?_cons_of_neg _ (by simpa using he)]
      simp only [h2, Bool.false_or]
      exact ih

theorem mapGet_mapSet {κ β : Type} [DecidableEq κ] (tbl : List (κ × β))
    (k : κ) (v : β) (key : κ) :
    mapGet (mapSet tbl k v) key
      = if key = k then some v else mapGet tbl key := by
  by_cases hkey : key = k
  · subst hkey
    rw [if_pos rfl]
    by_cases hany : tbl.any (fun e => decide (e.1 = key)) = true
    · simp only [mapGet, mapSet, hany, if_true]
      rw [find?_map_replace_eq key v tbl, if_pos hany]
      rfl
    · have hany' : tbl.any (fun e => decide (e.1 = key)) = false :=
        Bool.eq_false_iff.mpr hany
      simp only [mapGet, mapSet, hany', Bool.false_eq_true, if_false]
      have hnone : tbl.find? (fun e => decide (e.1 = key)) = none := by
        rw [List.find?_eq_none]
        intro e he
        have := (List.any_eq_false.mp hany') e he
        simpa using this
      rw [List.find?_append, hnone]
      simp
  · rw [if_neg hkey]
    by_cases hany : tbl.any (fun e => decide (e.1 = k)) = true
    · simp only [mapGet, mapSet, hany, if_true]
      rw [find?_map_replace_ne k key v hkey tbl]
    · have hany' : tbl.any (fun e => decide (e.1 = k)) = false :=
        Bool.eq_false_iff.mpr hany
      simp only [mapGet, mapSet, hany', Bool.false_eq_true, if_false]
      rw [List.find?_append]
      have h1 : [(k, v)].find? (fun e => decide (e.1 = key)) = none := by
        simp
        exact fun hh => hkey hh.symm
      rw [h1]
      simp

theorem buildTable_get {α κ : Type} [DecidableEq κ] (getKey : α → κ)
    (target : κ) :
    ∀ (l : List α) (i : Nat) (tbl : List (κ × Nat × α)),
      mapGet (buildTable getKey l i tbl) target
        = match (hitsFrom getKey target l i).getLast? with
          | some p => some p
          | none => mapGet tbl target := by
  intro l
  induction l with
  | nil =>
    intro i tbl
    simp [buildTable, hitsFrom]
  | cons x rest ih =>
    intro i tbl
    simp only [buildTable, hitsFrom]
    rw [ih (i + 1) (mapSet tbl (getKey x) (i, x))]
    cases hr : (hitsFrom getKey target rest (i + 1)).getLast? with
    | some p =>
      have hne : hitsFrom getKey target rest (i + 1) ≠ [] := by
        intro hnil
        rw [hnil] at hr
        exact Option.noConfusion hr
      rw [List.getLast?_append_of_ne_nil _ hne, hr]
    | none =>
      have hnil : hitsFrom getKey target rest (i + 1) = [] := by
        cases hl : hitsFrom getKey target rest (i + 1) with
        | nil => rfl
        | cons a t =>
          rw [hl] at hr
          have hs : (a :: t).getLast?.isSome := by
            rw [List.getLast?_isSome]
            exact List.cons_ne_nil a t
          rw [hr] at hs
          exact Bool.noConfusion hs
      simp only [hr, hnil, List.append_nil]
      rw [mapGet_mapSet]
      by_cases hx : getKey x = target
      · have hx' : target = getKey x := hx.symm
        simp only [if_pos hx, if_pos hx', List.getLast?_singleton]
      · have hx' : ¬(target = getKey x) := fun hh => hx hh.symm
        simp only [if_neg hx, if_neg hx']
        simp

theorem linearSearchAux_spec {α κ : Type} [DecidableEq κ] (getKey : α → κ)
    (target : κ) :
    ∀ (l : List α) (i c : Nat) (q : Nat × α),
      (hitsFrom getKey target l i).head? = some q →
      (linearSearchAux getKey target l i c).found = true ∧
      (linearSearchAux getKey target l i c).index = (q.1 : Int) ∧
      (linearSearchAux getKey target l i c).element = some q.2 := by
  intro l
  induction l with
  | nil =>
    intro i c q hq
    simp [hitsFrom] at hq
  | cons x rest ih =>
    intro i c q hq
    simp only [hitsFrom] at hq
    simp only [linearSearchAux]
    by_cases hx : getKey x = target
    · rw [if_pos hx] at hq ⊢
      simp only [List.singleton_append, List.head?_cons, Option.some.injEq] at hq
      rw [← hq]
      exact ⟨rfl, rfl, rfl⟩
    · rw [if_neg hx] at hq ⊢
      simp only [List.nil_append] at hq
      exact ih (i + 1) (c + 1) q hq

/-- C10: when more than one element of the input has the target key,
`hashSearch` reports `found = true` with the index and element of the
*last* such occurrence (later table entries overwrite earlier ones
during the build), whereas `linearSearch` on the same input reports the
*first* occurrence. -/
theorem claim_C10_hash_last_linear_first {α κ : Type} [DecidableEq κ]
    (data : List α) (target : κ) (getKey : α → κ)
    (_hdup : 2 ≤ (hitsFrom getKey target data 0).length)
    (p q : Nat × α)
    (hlast : (hitsFrom getKey target data 0).getLast? = some p)
    (hhead : (hitsFrom getKey target data 0).head? = some q) :
    (hashSearch data target getKey).found = true ∧
    (hashSearch data target getKey).index = (p.1 : Int) ∧
    (hashSearch data target getKey).element = some p.2 ∧
    (linearSearch data target getKey).found = true ∧
    (linearSearch data target getKey).index = (q.1 : Int) ∧
    (linearSearch data target getKey).element = some q.2 := by
  have hbuild := buildTable_get getKey target data 0 []
  rw [hlast] at hbuild
  have hlin := linearSearchAux_spec getKey target data 0 0 q hhead
  refine ⟨?_, ?_, ?_, hlin.1, hlin.2.1, hlin.2.2⟩ <;>
    simp [hashSearch, hbuild]

/-- Witness for C10: the key `n % 10` with target `0` over
`[10, 21, 30]` — two matching elements at indices 0 and 2. -/
theorem claim_C10_hash_last_linear_first_witness :
    (2 ≤ (hitsFrom (fun n : Nat => n % 10) 0 [10, 21, 30] 0).length ∧
     (hitsFrom (fun n : Nat => n % 10) 0 [10, 21, 30] 0).getLast?
       = some (2, 30) ∧
     (hitsFrom (fun n : Nat => n % 10) 0 [10, 21, 30] 0).head?
       = some (0, 10)) ∧
    ((hashSearch [10, 21, 30] 0 (fun n : Nat => n % 10)).found = true ∧
     (hashSearch [10, 21, 30] 0 (fun n : Nat => n % 10)).index = ((2 : Nat) : Int) ∧
     (hashSearch [10, 21, 30] 0 (fun n : Nat => n % 10)).element = some 30 ∧
     (linearSearch [10, 21, 30] 0 (fun n : Nat => n % 10)).found = true ∧
     (linearSearch [10, 21, 30] 0 (fun n : Nat => n % 10)).index = ((0 : Nat) : Int) ∧
     (linearSearch [10, 21, 30] 0 (fun n : Nat => n % 10)).element = some 10) :=
  ⟨⟨by decide, by decide, by decide⟩,
   claim_C10_hash_last_linear_first [10, 21, 30] 0 (fun n : Nat => n % 10)
     (by decide) (2, 30) (0, 10) (by decide) (by decide)⟩

/-! ### Claim C2: sorting-algorithm selection policy -/

/-- C2 counterexample: a one-element book list is *not* handed to
Insertion Sort --- `sortBooksInOrder` short-circuits with "No sorting
needed" (and updates no statistics), so the policy "Insertion Sort when
the list has at most 10 elements" fails at size 1. -/
theorem claim_C2_counterexample :
    (sortBooksInOrder ⟨0, 0, [], []⟩ [⟨none, none⟩]).1.algorithm
      ≠ "Insertion Sort" ∧
    (sortBooksInOrder ⟨0, 0, [], []⟩ [⟨none, none⟩]).1.algorithm
      = "No sorting needed" :=
  ⟨by decide, rfl⟩

/-- C2 (amended): the algorithm applied to an order's book list is
chosen by input size alone *for lists of at least two books*: Insertion
Sort up to 10 books, Quick Sort for 11--50, Merge Sort above 50; lists
with at most one book skip sorting entirely ("No sorting needed"). -/
theorem claim_C2_sort_selection_policy (stats : Stats) (books : List Item) :
    (books.length ≤ 1 →
      (sortBooksInOrder stats books).1.algorithm = "No sorting needed") ∧
    (2 ≤ books.length → books.length ≤ 10 →
      (sortBooksInOrder stats books).1.algorithm = "Insertion Sort") ∧
    (11 ≤ books.length → books.length ≤ 50 →
      (sortBooksInOrder stats books).1.algorithm = "Quick Sort") ∧
    (51 ≤ books.length →
      (sortBooksInOrder stats books).1.algorithm = "Merge Sort") := by
  refine ⟨?_, ?_, ?_, ?_⟩
  · intro h1
    simp [sortBooksInOrder, h1]
  · intro h2 h10
    simp [sortBooksInOrder, show ¬books.length ≤ 1 by omega, h10]
  · intro h11 h50
    simp [sortBooksInOrder, show ¬books.length ≤ 1 by omega,
      show ¬books.length ≤ 10 by omega, h50]
  · intro h51
    simp [sortBooksInOrder, show ¬books.length ≤ 1 by omega,
      show ¬books.length ≤ 10 by omega, show ¬books.length ≤ 50 by omega]

/-- Witness for C2 (amended), one input in each size band. -/
theorem claim_C2_sort_selection_policy_witness :
    (([(⟨none, none⟩ : Item)].length ≤ 1 ∧
      (sortBooksInOrder ⟨0, 0, [], []⟩ [⟨none, none⟩]).1.algorithm
        = "No sorting needed") ∧
     (2 ≤ (List.replicate 3 (⟨none, none⟩ : Item)).length ∧
      (List.replicate 3 (⟨none, none⟩ : Item)).length ≤ 10 ∧
      (sortBooksInOrder ⟨0, 0, [], []⟩
        (List.replicate 3 ⟨none, none⟩)).1.algorithm = "Insertion Sort") ∧
     (11 ≤ (List.replicate 12 (⟨none, none⟩ : Item)).length ∧
      (List.replicate 12 (⟨none, none⟩ : Item)).length ≤ 50 ∧
      (sortBooksInOrder ⟨0, 0, [], []⟩
        (List.replicate 12 ⟨none, none⟩)).1.algorithm = "Quick Sort") ∧
     (51 ≤ (List.replicate 60 (⟨none, none⟩ : Item)).length ∧
      (sortBooksInOrder ⟨0, 0, [], []⟩
        (List.replicate 60 ⟨none, none⟩)).1.algorithm = "Merge Sort")) :=
  ⟨⟨by decide,
    (claim_C2_sort_selection_policy ⟨0, 0, [], []⟩ [⟨none, none⟩]).1
      (by decide)⟩,
   ⟨by decide, by decide,
    (claim_C2_sort_selection_policy ⟨0, 0, [], []⟩
      (List.replicate 3 ⟨none, none⟩)).2.1 (by decide) (by decide)⟩,
   ⟨by decide, by decide,
    (claim_C2_sort_selection_policy ⟨0, 0, [], []⟩
      (List.replicate 12 ⟨none, none⟩)).2.2.1 (by decide) (by decide)⟩,
   ⟨by decide,
    (claim_C2_sort_selection_policy ⟨0, 0, [], []⟩
      (List.replicate 60 ⟨none, none⟩)).2.2.2 (by decide)⟩⟩

/-! ### Claim C4: search-algorithm selection -/

theorem linearSearchAux_algorithm {α κ : Type} [DecidableEq κ]
    (getKey : α → κ) (target : κ) :
    ∀ (l : List α) (i c : Nat),
      (linearSearchAux getKey target l i c).algorithm = "Linear Search" := by
  intro l
  induction l with
  | nil => intro i c; rfl
  | cons x rest ih =>
    intro i c
    simp only [linearSearchAux]
    by_cases hx : getKey x = target
    · rw [if_pos hx]
    · rw [if_neg hx]
      exact ih (i + 1) (c + 1)

theorem hashSearch_algorithm {α κ : Type} [DecidableEq κ] (data : List α)
    (target : κ) (getKey : α → κ) :
    (hashSearch data target getKey).algorithm = "Hash Search" := by
  rw [hashSearch]
  cases mapGet (buildTable getKey data 0 []) target with
  | none => rfl
  | some p => rcases p with ⟨i, x⟩; rfl

/-- C4 counterexample: an explicit `searchType = "orderNumber"` call is
served by *Linear* Search, not Hash Search (the hash branch is only the
`default` for unrecognized types). -/
theorem claim_C4_counterexample :
    osAlgorithm (searchOrder initState "ORD-1" "orderNumber").1
      = "Linear Search" ∧
    osAlgorithm (searchOrder initState "ORD-1" "orderNumber").1
      ≠ "Hash Search" :=
  ⟨rfl, by decide⟩

/-- C4 (amended): `searchOrder(term, type)` dispatches on the search
type as: `orderNumber` → Linear Search (keyed by order number),
`customer` → Fuzzy Search, `status` → Linear Search, and any
unrecognized type → Hash Search keyed by order number.  (The source has
no caller-override parameter.) -/
theorem claim_C4_search_selection (s : OPState) (term : String) :
    osAlgorithm (searchOrder s term "orderNumber").1 = "Linear Search" ∧
    osAlgorithm (searchOrder s term "customer").1 = "Fuzzy Search" ∧
    osAlgorithm (searchOrder s term "status").1 = "Linear Search" ∧
    (∀ ty : String, ty ≠ "orderNumber" → ty ≠ "customer" → ty ≠ "status" →
      osAlgorithm (searchOrder s term ty).1 = "Hash Search") := by
  refine ⟨?_, ?_, ?_, ?_⟩
  · simp [searchOrder, osAlgorithm, linearSearch, linearSearchAux_algorithm]
  · simp [searchOrder, osAlgorithm, fuzzySearch]
  · simp [searchOrder, osAlgorithm, linearSearch, linearSearchAux_algorithm]
  · intro ty h1 h2 h3
    simp only [searchOrder, if_neg h1, if_neg h2, if_neg h3, osAlgorithm]
    exact hashSearch_algorithm _ _ _

/-- Witness for C4 (amended) at the empty orchestrator state, exercising
the unrecognized type `"isbn"`. -/
theorem claim_C4_search_selection_witness :
    osAlgorithm (searchOrder initState "ORD-1" "orderNumber").1
      = "Linear Search" ∧
    osAlgorithm (searchOrder initState "ORD-1" "customer").1
      = "Fuzzy Search" ∧
    osAlgorithm (searchOrder initState "ORD-1" "status").1
      = "Linear Search" ∧
    (("isbn" : String) ≠ "orderNumber" ∧ ("isbn" : String) ≠ "customer" ∧
     ("isbn" : String) ≠ "status" ∧
     osAlgorithm (searchOrder initState "ORD-1" "isbn").1 = "Hash Search") :=
  ⟨(claim_C4_search_selection initState "ORD-1").1,
   (claim_C4_search_selection initState "ORD-1").2.1,
   (claim_C4_search_selection initState "ORD-1").2.2.1,
   by decide, by decide, by decide,
   (claim_C4_search_selection initState "ORD-1").2.2.2 "isbn"
     (by decide) (by decide) (by decide)⟩

/-! ### Claim C7: processNext on an empty queue -/

/-- C7: when the pending queue is empty, `processNextOrder()` returns
the EmptyQueue failure and leaves the pending queue size, completed
queue size, history stack and statistics unchanged (the whole state is
returned untouched). -/
theorem claim_C7_empty_queue (s : OPState) (now : Nat) (elapsed : ℚ)
    (h : qIsEmpty s.pendingOrders = true) :
    processNextOrder s now elapsed = (.emptyQueue, s) ∧
    qSize (processNextOrder s now elapsed).2.pendingOrders
      = qSize s.pendingOrders ∧
    qSize (processNextOrder s now elapsed).2.completedOrders
      = qSize s.completedOrders ∧
    (processNextOrder s now elapsed).2.processingHistory
      = s.processingHistory ∧
    (processNextOrder s now elapsed).2.stats = s.stats := by
  have heq : processNextOrder s now elapsed = (.emptyQueue, s) := by
    simp [processNextOrder, h]
  rw [heq]
  exact ⟨rfl, rfl, rfl, rfl, rfl⟩

/-- Witness for C7 at the freshly constructed orchestrator. -/
theorem claim_C7_empty_queue_witness :
    qIsEmpty (initState.pendingOrders) = true ∧
    processNextOrder initState 0 0 = (.emptyQueue, initState) :=
  ⟨by decide, (claim_C7_empty_queue initState 0 0 (by decide)).1⟩

/-! ### Claim C3: undo of a non-ORDER_PROCESSED entry -/

/-- C3 counterexample: at a state whose history holds a single
`ORDER_ADDED` entry, `undoLastOperation()` does return the NotUndoable
failure, but it *pops the entry anyway*: the history stack differs
before and after the call, so "causes no state change" fails. -/
theorem claim_C3_counterexample :
    (sPeek (OPState.mk qEmpty
        (sPush sEmpty ⟨"ORDER_ADDED", "ORD-1", 0, some 1, none, none, none⟩)
        qEmpty ⟨0, 0, [], []⟩).processingHistory
      = some ⟨"ORDER_ADDED", "ORD-1", 0, some 1, none, none, none⟩) ∧
    ((undoLastOperation (OPState.mk qEmpty
        (sPush sEmpty ⟨"ORDER_ADDED", "ORD-1", 0, some 1, none, none, none⟩)
        qEmpty ⟨0, 0, [], []⟩)).1 = .notUndoable) ∧
    ((undoLastOperation (OPState.mk qEmpty
        (sPush sEmpty ⟨"ORDER_ADDED", "ORD-1", 0, some 1, none, none, none⟩)
        qEmpty ⟨0, 0, [], []⟩)).2.processingHistory
      ≠ (OPState.mk qEmpty
        (sPush sEmpty ⟨"ORDER_ADDED", "ORD-1", 0, some 1, none, none, none⟩)
        qEmpty ⟨0, 0, [], []⟩).processingHistory) :=
  ⟨by decide, by decide, by decide⟩

/-- C3 (amended): when the history stack is non-empty and its top entry
is not an `ORDER_PROCESSED` entry, `undoLastOperation()` returns the
NotUndoable failure and leaves both queues and the statistics unchanged,
but the top history entry *is popped*: the resulting history stack is
the popped one, not the original. -/
theorem claim_C3_not_undoable (s : OPState) (e : HistoryEntry)
    (htop : sPeek s.processingHistory = some e)
    (hact : e.action ≠ "ORDER_PROCESSED") :
    (undoLastOperation s).1 = .notUndoable ∧
    (undoLastOperation s).2.pendingOrders = s.pendingOrders ∧
    (undoLastOperation s).2.completedOrders = s.completedOrders ∧
    (undoLastOperation s).2.stats = s.stats ∧
    (undoLastOperation s).2.processingHistory
      = (sPop s.processingHistory).1 := by
  have hemp : sIsEmpty s.processingHistory = false := by
    by_contra hc
    rw [Bool.not_eq_false] at hc
    rw [sPeek, if_pos hc] at htop
    exact Option.noConfusion htop
  have hpop : (sPop s.processingHistory).2 = some e := by
    rw [← sPeek_eq_sPop_snd]
    exact htop
  have heq : undoLastOperation s =
      (.notUndoable,
       { s with processingHistory := (sPop s.processingHistory).1 }) := by
    rw [undoLastOperation, if_neg (by simp [hemp])]
    simp only [hpop]
    rw [if_neg hact]
  rw [heq]
  exact ⟨rfl, rfl, rfl, rfl, rfl⟩

/-- Witness for C3 (amended) at the single-`ORDER_ADDED`-entry state. -/
theorem claim_C3_not_undoable_witness :
    (sPeek (OPState.mk qEmpty
        (sPush sEmpty ⟨"ORDER_ADDED", "ORD-2", 3, some 1, none, none, none⟩)
        qEmpty ⟨0, 0, [], []⟩).processingHistory
      = some ⟨"ORDER_ADDED", "ORD-2", 3, some 1, none, none, none⟩) ∧
    (("ORDER_ADDED" : String) ≠ "ORDER_PROCESSED") ∧
    (undoLastOperation (OPState.mk qEmpty
        (sPush sEmpty ⟨"ORDER_ADDED", "ORD-2", 3, some 1, none, none, none⟩)
        qEmpty ⟨0, 0, [], []⟩)).1 = .notUndoable :=
  ⟨by decide, by decide,
   (claim_C3_not_undoable
     (OPState.mk qEmpty
       (sPush sEmpty ⟨"ORDER_ADDED", "ORD-2", 3, some 1, none, none, none⟩)
       qEmpty ⟨0, 0, [], []⟩)
     ⟨"ORDER_ADDED", "ORD-2", 3, some 1, none, none, none⟩
     (by decide) (by decide)).1⟩

/-! ### Claim C8: getProcessingHistory is a read-only view -/

theorem ghLoop_acc :
    ∀ (n : Nat) (hist : StackS HistoryEntry)
      (out temp : List (Option HistoryEntry)),
      ghLoop n hist out temp
        = ((ghLoop n hist [] []).1,
           out ++ (ghLoop n hist [] []).2.1,
           (ghLoop n hist [] []).2.2 ++ temp) := by
  intro n
  induction n with
  | zero => intro hist out temp; simp [ghLoop]
  | succ n ih =>
    intro hist out temp
    simp only [ghLoop]
    by_cases hemp : sIsEmpty hist
    · rw [if_pos hemp, if_pos hemp]
      simp
    · rw [if_neg hemp, if_neg hemp]
      rw [ih (sPop hist).1 (out ++ [(sPop hist).2]) ((sPop hist).2 :: temp),
          ih (sPop hist).1 ([] ++ [(sPop hist).2]) ((sPop hist).2 :: [])]
      simp

theorem ghRestore_append :
    ∀ (l1 l2 : List (Option HistoryEntry)) (h : StackS HistoryEntry),
      ghRestore (l1 ++ l2) h = ghRestore l2 (ghRestore l1 h) := by
  intro l1
  induction l1 with
  | nil => intro l2 h; rfl
  | cons v l1 ih =>
    intro l2 h
    simp only [List.cons_append, ghRestore]
    exact ih l2 (sPushOpt h v)

theorem ghLoop_spec :
    ∀ (n : Nat) (hist : StackS HistoryEntry), SInv hist →
      ghRestore (ghLoop n hist [] []).2.2 (ghLoop n hist [] []).1 = hist ∧
      (ghLoop n hist [] []).2.1 = ((sAbs hist).take n).map some := by
  intro n
  induction n with
  | zero => intro hist _; exact ⟨rfl, by simp [ghLoop]⟩
  | succ n ih =>
    intro hist hinv
    by_cases hemp : sIsEmpty hist
    · have habs : sAbs hist = [] := (sAbs_nil_iff hist hinv).mpr hemp
      simp only [ghLoop, if_pos hemp]
      exact ⟨rfl, by simp [habs]⟩
    · have hemp' : sIsEmpty hist = false := by simpa using hemp
      have hne : sAbs hist ≠ [] := by
        rw [Ne, sAbs_nil_iff hist hinv]
        simpa using hemp
      obtain ⟨e, rest, habs⟩ : ∃ e rest, sAbs hist = e :: rest := by
        cases h : sAbs hist with
        | nil => exact absurd h hne
        | cons a t => exact ⟨a, t, rfl⟩
      obtain ⟨hpop2, hinv1, habs1⟩ := sPop_cons hist e rest hinv habs
      obtain ⟨ihr, iho⟩ := ih (sPop hist).1 hinv1
      simp only [ghLoop, if_neg hemp]
      rw [ghLoop_acc n (sPop hist).1 ([] ++ [(sPop hist).2])
        ((sPop hist).2 :: [])]
      constructor
      · simp only [List.nil_append]
        rw [ghRestore_append, ihr]
        simp only [ghRestore]
        exact sPop_pushOpt_roundtrip hist hinv hemp'
      · simp only [List.nil_append]
        rw [iho, habs1, hpop2, habs]
        simp [List.take_cons]

/-- C8: for every orchestrator state (satisfying the history-stack
invariant of reachable states) and every `n`, `getProcessingHistory(n)`
returns the last `min(n, history size)` entries most-recent-first and
leaves the whole state --- in particular the history stack --- exactly
as it was, so two consecutive calls with no intervening mutator return
identical results. -/
theorem claim_C8_get_history (s : OPState) (n : Nat)
    (hinv : SInv s.processingHistory) :
    (getProcessingHistory s n).2 = s ∧
    (getProcessingHistory s n).1
      = ((sAbs s.processingHistory).take n).map some ∧
    (getProcessingHistory ((getProcessingHistory s n).2) n).1
      = (getProcessingHistory s n).1 := by
  obtain ⟨hr, ho⟩ := ghLoop_spec n s.processingHistory hinv
  have h2 : (getProcessingHistory s n).2 = s := by
    simp only [getProcessingHistory]
    rw [hr]
  refine ⟨h2, ?_, ?_⟩
  · simp only [getProcessingHistory]
    exact ho
  · rw [h2]

/-- Witness for C8 at a two-entry history stack with `n = 1`. -/
theorem claim_C8_get_history_witness :
    SInv (OPState.mk qEmpty
        (sPush (sPush sEmpty
            ⟨"ORDER_ADDED", "ORD-1", 0, some 1, none, none, none⟩)
          ⟨"ORDER_PROCESSED", "ORD-1", 1, none, some 2, some "Insertion Sort",
            none⟩)
        qEmpty ⟨0, 0, [], []⟩).processingHistory ∧
    (getProcessingHistory (OPState.mk qEmpty
        (sPush (sPush sEmpty
            ⟨"ORDER_ADDED", "ORD-1", 0, some 1, none, none, none⟩)
          ⟨"ORDER_PROCESSED", "ORD-1", 1, none, some 2, some "Insertion Sort",
            none⟩)
        qEmpty ⟨0, 0, [], []⟩) 1).2
      = OPState.mk qEmpty
        (sPush (sPush sEmpty
            ⟨"ORDER_ADDED", "ORD-1", 0, some 1, none, none, none⟩)
          ⟨"ORDER_PROCESSED", "ORD-1", 1, none, some 2, some "Insertion Sort",
            none⟩)
        qEmpty ⟨0, 0, [], []⟩ :=
  ⟨by unfold SInv; decide,
   (claim_C8_get_history _ 1 (by unfold SInv; decide)).1⟩

end Bookstore
